import Mathlib

/-!
# Verification of the FHEON packed-ciphertext tensor evaluator

A shallow embedding, in Lean 4, of the core of the FHEON homomorphic CNN
evaluator (`FHEONANNController.cpp`, `FHEONHEController.cpp`,
`UtilsData.h`, and the client encode path), together with proofs and
refutations of the specified properties.

## Modelling conventions

* A ciphertext is modelled by its decrypted slot content: a function
  `ℤ → ℚ` (an `N`-periodic function represents the `N` packed slots; all
  ciphertexts produced by the embedded operations from encoded inputs are
  `N`-periodic) together with its level counter.  CKKS noise is ignored:
  every claim treated here is about the exact values the pipeline computes.
* The CKKS backend (OpenFHE) is not part of the repository; its operations
  are modelled from the backend contract in §6 of the specification:
  `EvalRotate` with a positive index is a cyclic left slot rotation,
  `eval_sum_first` sums the first `k` slots into slot 0 (realised here as
  the standard rotate-and-add window sum), `eval_merge` collects slot 0 of
  each argument into consecutive slots, and `chebyshev` is modelled as
  computing the approximated function exactly, as the claims direct.
* Levels follow the specification's accounting (§3, glossary): each
  ciphertext × plaintext multiplication consumes one level; additions and
  rotations are free.
* C++ `double` values are modelled as rationals; C++ `int` narrowing of a
  `double` is truncation toward zero; C++ `/` and `%` on `int` are
  `Int.tdiv` / `Int.tmod`; `unsigned int` arithmetic is taken modulo `2^32`
  where it can wrap.
-/

namespace Fheon

/-- A CKKS ciphertext, modelled by its (periodic) slot content and its
level counter.  `slots i` is the value held in slot `i mod N`. -/
structure Ct where
  slots : ℤ → ℚ
  level : ℕ

/-- A CKKS plaintext: the encoded vector, the encoding level, and the
number of packed slots (`per`).  Encoding a vector into `per` slots packs
it (zero padded) into one period; a sparsely packed plaintext (`per < N`)
replicates its period across the ring, which is the full-slot view OpenFHE
gives a sparse packing. -/
structure Pt where
  vec : List ℚ
  lvl : ℕ
  per : ℕ

/-- Value a plaintext contributes at slot `i`: the encoded vector is read
at `i mod per`, positions past the vector's end being the zero padding. -/
def ptAt (p : Pt) (i : ℤ) : ℚ := p.vec.getD (i % (p.per : ℤ)).toNat 0

/-- Backend `MakeCKKSPackedPlaintext(vec, scaleDeg, level)` with default
(full) slot count `N`. -/
def makePt (N : ℕ) (v : List ℚ) (lvl : ℕ) : Pt := ⟨v, lvl, N⟩

/-- Backend `MakeCKKSPackedPlaintext(vec, scaleDeg, level, params, numSlots)`
with an explicit sparse slot count. -/
def makePtSparse (v : List ℚ) (lvl ns : ℕ) : Pt := ⟨v, lvl, ns⟩

/-- Backend ciphertext × plaintext multiplication: slotwise product; one
level is consumed (spec §3). -/
def evalMult (c : Ct) (p : Pt) : Ct := ⟨fun i => c.slots i * ptAt p i, c.level + 1⟩

/-- Backend ciphertext addition: slotwise sum; no level is consumed, the
result sits at the deeper of the two levels. -/
def evalAdd (a b : Ct) : Ct := ⟨fun i => a.slots i + b.slots i, max a.level b.level⟩

/-- Backend ciphertext + plaintext addition: slotwise sum with the encoded
vector; no level is consumed. -/
def evalAddPt (c : Ct) (p : Pt) : Ct := ⟨fun i => c.slots i + ptAt p i, c.level⟩

/-- Backend slot rotation: a positive index rotates left (slot `i` receives
the value of slot `i + k`), a negative index rotates right.  Level free. -/
def evalRotate (c : Ct) (k : ℤ) : Ct := ⟨fun i => c.slots (i + k), c.level⟩

/-- Backend `EvalAddMany`: folds `evalAdd` over the list. -/
def evalAddMany (l : List Ct) : Ct :=
  match l with
  | [] => ⟨fun _ => 0, 0⟩
  | c :: cs => cs.foldl evalAdd c

/-- Backend `EvalSum(c, n)` (spec §6 `eval_sum_first`): slot `i` receives
the sum of the `n` slots starting at `i`; in particular slot 0 receives the
sum of the first `n` slots.  This is the rotate-and-add cascade OpenFHE
performs.  No level is consumed. -/
def evalSum (c : Ct) (n : ℕ) : Ct :=
  ⟨fun i => (((List.range n).map fun t : ℕ => c.slots (i + (t : ℤ))).sum), c.level⟩

/-- Backend `EvalMerge` (spec §6 `eval_merge`): slot `i` of the result is
slot 0 of the `i`-th input ciphertext, zero past the end of the list; one
level is consumed by the internal slot-0 masking. -/
def evalMerge (N : ℕ) (l : List Ct) : Ct :=
  ⟨fun i => (l.map fun c => c.slots 0).getD (i % (N : ℤ)).toNat 0,
   (l.map Ct.level).foldl max 0 + 1⟩

/-- Backend `EvalChebyshevFunction`, modelled (as claim C7 directs) as
computing the approximated scalar function exactly on every slot. -/
def evalCheby (f : ℚ → ℚ) (c : Ct) : Ct := ⟨fun i => f (c.slots i), c.level⟩

/-- `Clone()` on a ciphertext. -/
def cloneCt (c : Ct) : Ct := c

/-- Ciphertext freshly encrypted from a vector: the vector fills the first
slots of each period, the remaining slots are zero. -/
def ctOfVec (N : ℕ) (v : List ℚ) (lvl : ℕ) : Ct :=
  ⟨fun i => v.getD (i % (N : ℤ)).toNat 0, lvl⟩

/-- Ciphertext whose first `m` slots (of each period of `N`) hold `f 0, …,
f (m-1)` and whose remaining slots are zero. -/
def ctOfFun (N m : ℕ) (f : ℕ → ℚ) (lvl : ℕ) : Ct :=
  ⟨fun i => if (i % (N : ℤ)).toNat < m then f (i % (N : ℤ)).toNat else 0, lvl⟩

/-! ## Slot mask factory (`FHEONANNController.cpp`)

The mask builders below return the `vector<double>` each C++ function
passes to `MakeCKKSPackedPlaintext`, and the corresponding plaintext.  The
C++ loops that initialise a zero vector and then store `1.0` at computed
indices are rendered as the comprehension over positions they realise. -/

/-- `utilsdata::generate_mixed_mask(ones_width, vector_size)`:
`ones_width` ones followed by `vector_size - ones_width` zeros. -/
def generate_mixed_mask (ones_width vector_size : ℕ) : List ℚ :=
  List.replicate ones_width 1 ++ List.replicate (vector_size - ones_width) 0

/-- `utilsdata::generate_scale_mask(scale_value, vector_size)`: the mask is
`vector_size` copies of `1/scale_value`.  The C++ parameter is an `int`;
callers passing a `double` truncate it (see `he_relu`). -/
def generate_scale_mask (scale_value : ℤ) (vector_size : ℕ) : List ℚ :=
  List.replicate vector_size ((1 : ℚ) / (scale_value : ℚ))

/-- Vector built by `FHEONANNController::first_mask`: ones exactly at the
positions `i*width + j` with `i, j < width` and `i % stride = 0`,
`j % stride = 0`, inside a zero vector of length `inputSize` (the C++ loop
writes in bounds whenever `width*width ≤ inputSize`). -/
def first_mask_vals (width inputSize stride : ℕ) : List ℚ :=
  (List.range inputSize).map fun p =>
    if p < width * width ∧ (p % width) % stride = 0 ∧ (p / width) % stride = 0
    then 1 else 0

/-- `FHEONANNController::first_mask(width, inputSize, stride, level)`. -/
def first_mask (N width inputSize stride level : ℕ) : Pt :=
  makePt N (first_mask_vals width inputSize stride) level

/-- Vector built by `FHEONANNController::generate_binary_mask`: the
stateful loop over `copy_interval` (start at `pattern`, emit 1 while
positive, decrement, reset to `pattern` on reaching `-pattern`), which
produces the repeating pattern of `pattern` ones then `pattern` zeros. -/
def generate_binary_mask_vals (pattern : ℤ) (inputSize : ℕ) : List ℚ :=
  ((List.range inputSize).foldl
    (fun (st : List ℚ × ℤ) _ =>
      let v : ℚ := if 0 < st.2 then 1 else 0
      let ci := st.2 - 1
      (st.1 ++ [v], if ci ≤ -pattern then pattern else ci))
    ([], pattern)).1

/-- `FHEONANNController::generate_binary_mask(pattern, inputSize, stride,
level)`; the `stride` parameter is unused in the source. -/
def generate_binary_mask (N : ℕ) (pattern : ℤ) (inputSize stride level : ℕ) : Pt :=
  makePt N (generate_binary_mask_vals pattern inputSize) level

/-- Vector built by `FHEONANNController::generate_row_mask`: `row*width`
zeros, `width` ones, then `inputSize - width - row*width` zeros (the C++
loop bound is an `int`; a negative bound runs zero iterations, which
truncated subtraction also gives). -/
def generate_row_mask_vals (row width inputSize : ℕ) : List ℚ :=
  List.replicate (row * width) 0 ++ List.replicate width 1 ++
    List.replicate (inputSize - width - row * width) 0

/-- `FHEONANNController::generate_row_mask(row, width, inputSize, stride,
level)`; `stride` is unused in the source. -/
def generate_row_mask (N row width inputSize stride level : ℕ) : Pt :=
  makePt N (generate_row_mask_vals row width inputSize) level

/-- `FHEONANNController::generate_zero_mask(size, level)`. -/
def generate_zero_mask (N size level : ℕ) : Pt :=
  makePt N (List.replicate size (0 : ℚ)) level

/-- `FHEONANNController::generate_zero_mask_channels(inputSize,
numChannels, level)`. -/
def generate_zero_mask_channels (N inputSize numChannels level : ℕ) : Pt :=
  makePt N (List.replicate (inputSize * numChannels) (0 : ℚ)) level

/-- Vector built by `FHEONANNController::first_mask_with_channels`: the
same base vector as `first_mask_vals`, concatenated `numChannels` times. -/
def first_mask_with_channels_vals (inputWidth inputSize stride numChannels : ℕ) : List ℚ :=
  (List.replicate numChannels
    ((List.range inputSize).map fun p =>
      if p < inputWidth * inputWidth ∧ (p % inputWidth) % stride = 0 ∧
          (p / inputWidth) % stride = 0
      then 1 else 0)).flatten

/-- `FHEONANNController::first_mask_with_channels(inputWidth, inputSize,
stride, numChannels, level)`. -/
def first_mask_with_channels (N inputWidth inputSize stride numChannels level : ℕ) : Pt :=
  makePt N (first_mask_with_channels_vals inputWidth inputSize stride numChannels) level

/-- Vector built by `FHEONANNController::generate_binary_mask_with_channels`:
the same `copy_interval` loop as `generate_binary_mask_vals`, then the base
vector repeated `numChannels` times. -/
def generate_binary_mask_with_channels_vals (pattern : ℤ) (inputSize numChannels : ℕ) :
    List ℚ :=
  (List.replicate numChannels
    (((List.range inputSize).foldl
      (fun (st : List ℚ × ℤ) _ =>
        let v : ℚ := if 0 < st.2 then 1 else 0
        let ci := st.2 - 1
        (st.1 ++ [v], if ci ≤ -pattern then pattern else ci))
      ([], pattern)).1)).flatten

/-- `FHEONANNController::generate_binary_mask_with_channels(pattern,
inputSize, stride, numChannels, level)`; `stride` is unused. -/
def generate_binary_mask_with_channels (N : ℕ) (pattern : ℤ)
    (inputSize stride numChannels level : ℕ) : Pt :=
  makePt N (generate_binary_mask_with_channels_vals pattern inputSize numChannels) level

/-- Vector built by `FHEONANNController::generate_row_mask_with_channels`:
the same base vector as `generate_row_mask_vals`, repeated `numChannels`
times. -/
def generate_row_mask_with_channels_vals (row width inputSize numChannels : ℕ) : List ℚ :=
  (List.replicate numChannels
    (List.replicate (row * width) (0 : ℚ) ++ List.replicate width 1 ++
      List.replicate (inputSize - width - row * width) 0)).flatten

/-- `FHEONANNController::generate_row_mask_with_channels(row, width,
inputSize, stride, numChannels, level)`; `stride` is unused. -/
def generate_row_mask_with_channels (N row width inputSize stride numChannels level : ℕ) :
    Pt :=
  makePt N (generate_row_mask_with_channels_vals row width inputSize numChannels) level

/-- `FHEONANNController::generate_channel_mask_with_zeros(channel,
outputSize, numChannels, level)`: ones on channel `channel`'s `outputSize`
slots inside `outputSize*numChannels` total slots. -/
def generate_channel_mask_with_zeros (N channel outputSize numChannels level : ℕ) : Pt :=
  makePt N
    (List.replicate (channel * outputSize) (0 : ℚ) ++ List.replicate outputSize 1 ++
      List.replicate (outputSize * numChannels - outputSize - channel * outputSize) 0)
    level

/-! ## Downsampler (`FHEONANNController::downsample`,
`downsample_with_multiple_channels`)

The C++ doubling loop `for (int s = 1; s < log2(outputWidth); s++)` runs
`⌈log₂ outputWidth⌉ - 1` iterations (`log2` is the exact real logarithm on
a `double`), i.e. `Nat.clog 2 outputWidth - 1`.  The closing rotation
`pow(2, log2(outputWidth) - 1)` is truncated to `int`, which equals
`outputWidth / 2` (for `outputWidth = 1` C++ computes `pow(2,-1) = 0.5`,
truncated to a rotation by 0). -/

/-- One iteration of the doubling loop of `downsample` (loop body of
`for (int s = 1; s < log2(outputWidth); s++)`): add a rotation by
`2^(s-1)`, then multiply by the binary mask of pattern `2^s`. -/
def dsLoopStep (N inputSize stride level : ℕ) (c : Ct) (s : ℕ) : Ct :=
  evalMult (evalAdd c (evalRotate c ((2 : ℤ) ^ (s - 1))))
    (generate_binary_mask N ((2 : ℤ) ^ s) inputSize stride level)

/-- The doubling loop of `downsample`, run for iterations `s = 1, …, cnt`. -/
def dsLoop (N inputSize stride level : ℕ) (c : Ct) (cnt : ℕ) : Ct :=
  (List.range' 1 cnt).foldl (dsLoopStep N inputSize stride level) c

/-- Step 1 of `FHEONANNController::downsample`: multiply by the first
mask, run the doubling loop, then add the closing rotation by
`outputWidth / 2` (the truncation of C++ `pow(2, log2(outputWidth)-1)`). -/
def dsJuxtapose (N : ℕ) (input : Ct) (inputWidth stride : ℕ) : Ct :=
  let outputWidth := inputWidth / stride
  let inputSize := inputWidth * inputWidth
  let r1 := evalMult (cloneCt input) (first_mask N inputWidth inputSize stride input.level)
  let r2 := dsLoop N inputSize stride input.level r1 (Nat.clog 2 outputWidth - 1)
  evalAdd r2 (evalRotate r2 ((outputWidth / 2 : ℕ) : ℤ))

/-- One iteration of the row loop of `downsample`: mask row `row` of the
working ciphertext into the accumulator, then (except after the last row)
rotate the working ciphertext by `stride*inputWidth - outputWidth`. -/
def dsRowStep (N inputWidth stride outputWidth inputSize level : ℕ)
    (st : Ct × Ct) (row : ℕ) : Ct × Ct :=
  let masked := evalMult st.1 (generate_row_mask N row outputWidth inputSize stride level)
  let acc := evalAdd st.2 masked
  let res := if row < outputWidth - 1
    then evalRotate st.1 ((stride * inputWidth : ℕ) - (outputWidth : ℤ))
    else st.1
  (res, acc)

/-- `FHEONANNController::downsample(input, inputWidth, stride)`. -/
def downsample (N : ℕ) (input : Ct) (inputWidth stride : ℕ) : Ct :=
  let outputWidth := inputWidth / stride
  let inputSize := inputWidth * inputWidth
  -- Step 1: binary decomposition for row juxtaposition
  let r3 := dsJuxtapose N input inputWidth stride
  -- Step 2: row processing
  let dz := evalMult input (generate_zero_mask N inputSize input.level)
  let st := (List.range outputWidth).foldl
    (dsRowStep N inputWidth stride outputWidth inputSize input.level) (r3, dz)
  st.2

/-- One iteration of the doubling loop of
`downsample_with_multiple_channels` (same structure as `dsLoopStep`, with
the channel-tiled binary mask). -/
def dsLoopStepCh (N inputSize stride numChannels level : ℕ) (c : Ct) (s : ℕ) : Ct :=
  evalMult (evalAdd c (evalRotate c ((2 : ℤ) ^ (s - 1))))
    (generate_binary_mask_with_channels N ((2 : ℤ) ^ s) inputSize stride numChannels level)

/-- One iteration of the row loop of `downsample_with_multiple_channels`. -/
def dsRowStepCh (N inputWidth stride outputWidth inputSize numChannels level : ℕ)
    (st : Ct × Ct) (row : ℕ) : Ct × Ct :=
  let masked := evalMult st.1
    (generate_row_mask_with_channels N row outputWidth inputSize stride numChannels level)
  let acc := evalAdd st.2 masked
  let res := if row < outputWidth - 1
    then evalRotate st.1 ((stride * inputWidth : ℕ) - (outputWidth : ℤ))
    else st.1
  (res, acc)

/-- One iteration of the channel loop of
`downsample_with_multiple_channels`. -/
def dsChanStep (N outputSize inputSize numChannels level : ℕ)
    (st : Ct × Ct) (ch : ℕ) : Ct × Ct :=
  let masked := evalMult st.1 (generate_channel_mask_with_zeros N ch outputSize numChannels level)
  let acc := evalAdd st.2 masked
  let res := if ch < numChannels - 1
    then evalRotate st.1 ((inputSize : ℤ) - (outputSize : ℤ))
    else st.1
  (res, acc)

/-- `FHEONANNController::downsample_with_multiple_channels(input,
inputWidth, stride, numChannels)`. -/
def downsample_with_multiple_channels (N : ℕ) (input : Ct)
    (inputWidth stride numChannels : ℕ) : Ct :=
  let inputSize := inputWidth * inputWidth
  let outputWidth := inputWidth / stride
  let level := input.level
  let outputSize := outputWidth * outputWidth
  let encryptedzeros := evalMult input (generate_zero_mask_channels N inputSize numChannels level)
  -- binary-row decomposition
  let r1 := evalMult input (first_mask_with_channels N inputWidth inputSize stride numChannels level)
  let r2 := (List.range' 1 (Nat.clog 2 outputWidth - 1)).foldl
    (dsLoopStepCh N inputSize stride numChannels level) r1
  let r3 := evalAdd r2 (evalRotate r2 ((outputWidth / 2 : ℕ) : ℤ))
  -- row processing
  let rows := (List.range outputWidth).foldl
    (dsRowStepCh N inputWidth stride outputWidth inputSize numChannels level)
    (r3, cloneCt encryptedzeros)
  -- per-channel compaction
  let chans := (List.range numChannels).foldl
    (dsChanStep N outputSize inputSize numChannels level)
    (rows.2, cloneCt encryptedzeros)
  chans.2

/-! ## Rotation-key planners (`FHEONANNController.cpp`)

Every planner ends with the same C++ post-processing:
```
std::sort(v);            // ascending
new_end = std::remove(v, 0);   // shift non-zeros to the front; the last
                               // count(0) positions keep their old values
new_end = std::unique(v);      // adjacent-duplicate removal over the WHOLE
                               // vector, including the remove() leftovers
v.erase(new_end, v.end());
std::sort(v);
```
`sortRemoveUniqueErase` embeds exactly that sequence.  The C++ loop
`for (int s = 1; s < log2(w); s++)` runs `⌈log₂ w⌉ - 1` iterations
(`Nat.clog 2 w - 1`), and the stray `pow(2, log2(w) - 1)` push truncates to
`w / 2`. -/

/-- `std::unique`: removal of adjacent duplicates. -/
def adjDedup : List ℤ → List ℤ
  | [] => []
  | [a] => [a]
  | a :: b :: rest => if a = b then adjDedup (b :: rest) else a :: adjDedup (b :: rest)

/-- The sort / remove-zero / unique / erase / sort pipeline shared by all
planners (see the section comment for the exact C++ semantics). -/
def sortRemoveUniqueErase (l : List ℤ) : List ℤ :=
  let sorted := List.insertionSort (· ≤ ·) l
  let k := sorted.count 0
  let afterRemove := sorted.filter (· ≠ 0) ++ sorted.drop (sorted.length - k)
  List.insertionSort (· ≤ ·) (adjDedup afterRemove)

/-- `FHEONANNController::generate_convolution_rotation_positions`.  The C++
`width_out` is `int` arithmetic: `((padded_width - (kernelWidth-1) - 1) /
stride) + 1` with division truncating toward zero, so it is zero or
negative once `kernelWidth ≥ padded_width + stride`; the row loop
`for (i = 1; i < width_out; i++)` then runs no iterations. -/
def generate_convolution_rotation_positions
    (inputWidth inputChannels outputChannels kernelWidth padding stride : ℕ) : List ℤ :=
  let inputWidth_sq := inputWidth * inputWidth
  let padded_width := inputWidth + 2 * padding
  let padding_width_sq := padded_width * padded_width
  let width_out : ℤ :=
    ((padded_width : ℤ) - ((kernelWidth : ℤ) - 1) - 1).tdiv (stride : ℤ) + 1
  let width_out_sq : ℤ := width_out * width_out
  sortRemoveUniqueErase
    ([(inputWidth : ℤ), (padded_width : ℤ), (padding_width_sq : ℤ), (inputWidth_sq : ℤ),
      width_out, width_out_sq, -1, 1]
      ++ ((List.range' 1 (kernelWidth - 1)).map fun i : ℕ => ((i : ℕ) : ℤ))
      ++ ((List.range' 1 (width_out - 1).toNat).map fun i : ℕ => -((i : ℤ) * width_out))
      ++ ((List.range' 1 (outputChannels - 1)).map fun i : ℕ => -((i : ℤ) * width_out_sq)))

/-- `FHEONANNController::generate_avgpool_rotation_positions`. -/
def generate_avgpool_rotation_positions
    (inputWidth kernelWidth stride inputChannels : ℕ) : List ℤ :=
  let width_avgpool_out := inputWidth / stride
  let width_avgpool_sq := width_avgpool_out * width_avgpool_out
  let width_sq := inputWidth * inputWidth
  sortRemoveUniqueErase
    ([(width_sq : ℤ), (inputWidth : ℤ), (kernelWidth : ℤ), (stride : ℤ),
      (width_avgpool_out : ℤ), ((stride * inputWidth : ℕ) : ℤ)]
      ++ ((List.range' 1 (inputChannels - 1)).map fun (i : ℕ) =>
            [-((i * width_avgpool_out : ℕ) : ℤ), -((i * width_avgpool_sq : ℕ) : ℤ)]).flatten
      ++ ((List.range' 1 (width_avgpool_out - 1)).map fun (i : ℕ) =>
            [(i : ℤ), -((i * width_avgpool_out : ℕ) : ℤ)]).flatten)

/-- `FHEONANNController::generate_optimized_convolution_rotation_positions`. -/
def generate_optimized_convolution_rotation_positions
    (inputWidth inputChannels outputChannels stride : ℕ) (stridingType : String) : List ℤ :=
  let inputWidth_sq := inputWidth * inputWidth
  let width_out := inputWidth / stride
  let width_out_sq := width_out * width_out
  let base : List ℤ :=
    [-1, 1, (inputWidth_sq : ℤ), (inputWidth : ℤ), -(inputWidth : ℤ)]
  let branch : List ℤ :=
    if stride > 1 then
      if stridingType = "basic" then
        ((List.range' 1 (inputChannels - 1)).map fun (i : ℕ) =>
          [-((i * width_out : ℕ) : ℤ), -((i * width_out_sq : ℕ) : ℤ)]).flatten
        ++ ((List.range' 1 (width_out - 1)).map fun (i : ℕ) =>
          [(i : ℤ), -((i * width_out : ℕ) : ℤ)]).flatten
      else if stridingType = "single_channel" then
        ((List.range' 1 (Nat.clog 2 width_out - 1)).map fun s : ℕ => ((2 : ℤ) ^ ((s - 1 : ℕ))))
        ++ [((width_out / 2 : ℕ) : ℤ), ((stride * inputWidth - width_out : ℕ) : ℤ),
            -(((inputWidth_sq : ℤ) - (width_out_sq : ℤ)) *
              (((outputChannels / stride : ℕ) : ℤ) - 1)),
            -((inputWidth_sq : ℤ) - (width_out_sq : ℤ))]
        ++ ((List.range' 1 (outputChannels - 1)).map fun i => -((i * width_out_sq : ℕ) : ℤ))
      else if stridingType = "multi_channels" then
        ((List.range' 1 (inputChannels - 1)).map fun i => -((i * inputWidth_sq : ℕ) : ℤ))
        ++ ((List.range' 1 (Nat.clog 2 width_out - 1)).map fun s : ℕ => ((2 : ℤ) ^ ((s - 1 : ℕ))))
        ++ [((width_out / 2 : ℕ) : ℤ), ((stride * inputWidth - width_out : ℕ) : ℤ),
            -(((inputWidth_sq : ℤ) - (width_out_sq : ℤ)) *
              (((outputChannels / stride : ℕ) : ℤ) - 1)),
            -((inputWidth_sq : ℤ) - (width_out_sq : ℤ)),
            (inputWidth_sq : ℤ) - (width_out_sq : ℤ),
            -((inputChannels : ℤ) * (width_out_sq : ℤ))]
      else []
    else
      (List.range' 1 (outputChannels - 1)).map fun i => -((i * width_out_sq : ℕ) : ℤ)
  sortRemoveUniqueErase (base ++ branch)

/-- `FHEONANNController::generate_avgpool_optimized_rotation_positions`.
The `globalPooling` branch and the `inputWidth ≤ 2` branch return early,
without the sort / dedup / zero-removal pipeline.  With `rotationIndex = 0`
the C++ global-pooling loop never terminates; the embedding (whose count is
`⌈inputChannels / rotationIndex⌉`) is only used with `rotationIndex ≥ 1`. -/
def generate_avgpool_optimized_rotation_positions
    (inputWidth inputChannels kernelWidth stride : ℕ) (globalPooling : Bool)
    (stridingType : String) (rotationIndex : ℕ) : List ℤ :=
  if globalPooling then
    [((inputWidth * inputWidth : ℕ) : ℤ), -(inputChannels : ℤ)]
    ++ ((List.range ((inputChannels + rotationIndex - 1) / rotationIndex)).map
          fun g => -((g * rotationIndex : ℕ) : ℤ))
    ++ ((List.range' 1 rotationIndex).map fun i : ℕ => ((i : ℕ) : ℤ))
  else
    let width_avgpool_out := inputWidth / stride
    let width_avgpool_sq := width_avgpool_out * width_avgpool_out
    let width_sq := inputWidth * inputWidth
    let base : List ℤ :=
      [(width_sq : ℤ), (inputWidth : ℤ), (stride : ℤ), (width_avgpool_out : ℤ),
        (width_avgpool_sq : ℤ), ((stride * inputWidth : ℕ) : ℤ)]
    if inputWidth ≤ 2 then
      base ++ ((List.range inputChannels).map fun pos : ℕ => ((pos : ℕ) : ℤ))
    else
      let branch : List ℤ :=
        if stride > 1 then
          if stridingType = "basic" then
            ((List.range' 1 (inputChannels - 1)).map fun (i : ℕ) =>
              [-((i * width_avgpool_out : ℕ) : ℤ), -((i * width_avgpool_sq : ℕ) : ℤ)]).flatten
            ++ ((List.range' 1 (width_avgpool_out - 1)).map fun (i : ℕ) =>
              [(i : ℤ), -((i * width_avgpool_out : ℕ) : ℤ)]).flatten
          else if stridingType = "single_channel" then
            ((List.range' 1 (Nat.clog 2 width_avgpool_out - 1)).map
              fun s : ℕ => ((2 : ℤ) ^ ((s - 1 : ℕ))))
            ++ [((width_avgpool_out / 2 : ℕ) : ℤ),
                ((stride * inputWidth - width_avgpool_out : ℕ) : ℤ),
                -(((width_sq : ℤ) - (width_avgpool_sq : ℤ)) *
                  (((inputChannels / stride : ℕ) : ℤ) - 1)),
                (width_sq : ℤ) - (width_avgpool_sq : ℤ)]
            ++ ((List.range' 1 (inputChannels - 1)).map
                  fun i => -((i * width_avgpool_sq : ℕ) : ℤ))
          else if stridingType = "multi_channels" then
            ((List.range' 1 (inputChannels - 1)).map fun i => -((i * width_sq : ℕ) : ℤ))
            ++ ((List.range' 1 (Nat.clog 2 width_avgpool_out - 1)).map
                  fun s : ℕ => ((2 : ℤ) ^ ((s - 1 : ℕ))))
            ++ [((width_avgpool_out / 2 : ℕ) : ℤ),
                ((stride * inputWidth - width_avgpool_out : ℕ) : ℤ),
                -(((width_sq : ℤ) - (width_avgpool_sq : ℤ)) *
                  (((inputChannels / stride : ℕ) : ℤ) - 1)),
                -((width_sq : ℤ) - (width_avgpool_sq : ℤ)),
                (width_sq : ℤ) - (width_avgpool_sq : ℤ),
                -((inputChannels : ℤ) * (width_avgpool_sq : ℤ))]
          else []
        else []
      sortRemoveUniqueErase (base ++ branch)

/-- `FHEONANNController::generate_linear_rotation_positions`.  The C++ loop
`for (counter = 0; counter < maxFCLayeroutputs; counter += rotationPositions)`
pushes `-counter` for `⌈maxFCLayeroutputs / rotationPositions⌉` counter
values (it does not terminate for `rotationPositions = 0`; the embedding is
used with `rotationPositions ≥ 1`). -/
def generate_linear_rotation_positions (maxFCLayeroutputs rotationPositions : ℕ) : List ℤ :=
  sortRemoveUniqueErase
    (((List.range ((maxFCLayeroutputs + rotationPositions - 1) / rotationPositions)).map
        fun g => -((g * rotationPositions : ℕ) : ℤ))
      ++ ((List.range' 1 rotationPositions).map fun i : ℕ => ((i : ℕ) : ℤ)))

/-! ## Rotation trace of the convolution kernel (claim C2)

The claims about `he_convolution` concern the set of offsets it passes to
the backend's rotate operation, which is a function of the layer shape
alone (the control flow never depends on slot data).  The functions below
record, in call order, every `EvalRotate` offset the kernel invokes. -/

/-- Offsets passed to `EvalRotate` by one call of `downsample(…, inputWidth,
stride)`: the doubling-loop rotations, the closing rotation by
`outputWidth / 2`, and the `outputWidth - 1` row-phase rotations. -/
def downsample_rotations (inputWidth stride : ℕ) : List ℤ :=
  let outputWidth := inputWidth / stride
  ((List.range' 1 (Nat.clog 2 outputWidth - 1)).map fun s : ℕ => ((2 : ℤ) ^ ((s - 1 : ℕ))))
  ++ [((outputWidth / 2 : ℕ) : ℤ)]
  ++ List.replicate (outputWidth - 1) (((stride * inputWidth : ℕ) : ℤ) - (outputWidth : ℕ))

/-- Offsets passed to `EvalRotate` by one call of
`he_convolution(…, inputWidth, inputChannels, outputChannels, kernelWidth,
paddingLen, stride)`, in call order.  `paddingLen` is accepted and ignored,
exactly as in the source (the output width is computed without it). -/
def he_convolution_rotations
    (inputWidth inputChannels outputChannels kernelWidth paddingLen stride : ℕ) : List ℤ :=
  let inputSize := inputWidth * inputWidth
  let outputWidth := (inputWidth - kernelWidth) / stride + 1
  let outputSize := outputWidth * outputWidth
  -- STEP 2: the k² rotated slices
  (((List.range kernelWidth).map fun i =>
      (if i > 0 then [(inputWidth : ℤ)] else [])
        ++ ((List.range' 1 (kernelWidth - 1)).map fun j : ℕ => ((j : ℕ) : ℤ))).flatten)
  -- STEPS 3-7, per output channel
  ++ (((List.range outputChannels).map fun out_ch =>
      (if inputChannels > 1 then List.replicate (inputChannels - 1) ((inputSize : ℕ) : ℤ)
        else [])
      ++ (if stride > 1 then downsample_rotations inputWidth stride
          else ((List.range' 1 (outputWidth - 1)).map fun (l : ℕ) =>
            [(inputWidth : ℤ), -((outputWidth * l : ℕ) : ℤ)]).flatten)
      ++ (if out_ch > 0 then [-((out_ch * outputSize : ℕ) : ℤ)] else [])).flatten)

/-! ## Fully connected kernels, ReLU, and decrypt-side helpers -/

/-- Placeholder plaintext for the (guarded) out-of-range weight access. -/
def defaultPt : Pt := ⟨[], 0, 0⟩

/-- `FHEONANNController::he_linear`.  On `outputSize > weightMatrix.size()`
the source prints an error message and returns the input ciphertext
unchanged.  The grouped loop state is `(j, rotation_index, inner_matrix,
result_matrix)`. -/
def he_linear (N : ℕ) (encryptedInput : Ct) (weightMatrix : List Pt) (biasInput : Pt)
    (inputSize outputSize rotatePositions : ℕ) : Ct :=
  if outputSize > weightMatrix.length then encryptedInput
  else
    let st := (List.range outputSize).foldl
      (fun (st : ℕ × ℕ × List Ct × List Ct) i =>
        match st with
        | (j, rotation_index, inner_matrix, result_matrix) =>
          let inner := inner_matrix ++
            [evalSum (evalMult encryptedInput (weightMatrix.getD i defaultPt)) inputSize]
          let j' := j + 1
          if j' = rotatePositions ∨ i = outputSize - 1 then
            let merged := evalMerge N inner
            (0, rotation_index + rotatePositions, [],
              result_matrix ++ [if rotation_index > 0
                then evalRotate merged (-(rotation_index : ℤ)) else merged])
          else (j', rotation_index, inner, result_matrix))
      (0, 0, [], [])
    evalAddPt (evalAddMany st.2.2.2) biasInput

/-- `FHEONANNController::he_linear_optimized`; same guard as `he_linear`,
then a single merge of all `outputSize` scalars. -/
def he_linear_optimized (N : ℕ) (encryptedInput : Ct) (weightMatrix : List Pt)
    (biasInput : Pt) (inputSize outputSize : ℕ) : Ct :=
  if outputSize > weightMatrix.length then encryptedInput
  else
    evalAddPt
      (evalMerge N ((List.range outputSize).map fun i =>
        evalSum (evalMult encryptedInput (weightMatrix.getD i defaultPt)) inputSize))
      biasInput

/-- C++ conversion of a `double` to `int`: truncation toward zero. -/
def cppToInt (q : ℚ) : ℤ := q.num.tdiv (q.den : ℤ)

/-- `utilsdata::nextPowerOf2` (32-bit unsigned bit-smearing).  The final
increment is taken modulo `2^32`, where the `unsigned int` can wrap. -/
def nextPowerOf2 (n : ℕ) : ℕ :=
  if n = 0 then 1
  else
    let n1 := n - 1
    let n2 := n1 ||| (n1 >>> 1)
    let n3 := n2 ||| (n2 >>> 2)
    let n4 := n3 ||| (n3 >>> 4)
    let n5 := n4 ||| (n4 >>> 8)
    let n6 := n5 ||| (n5 >>> 16)
    (n6 + 1) % 2 ^ 32

/-- `FHEONANNController::he_relu`.  For `scaleValue > 1` the input is first
multiplied by the scale mask — whose value is `1 / int(scaleValue)`, the
`double` argument being truncated to the `int` parameter of
`generate_scale_mask` — encoded into `nextPowerOf2(vectorSize)` slots;
otherwise the local `scaleValue` is set to 1.  The Chebyshev backend is
modelled as computing the lambda exactly (claim C7's reading); the lambda
captures the (possibly reassigned) `scaleValue`. -/
def he_relu (N : ℕ) (encryptedInput : Ct) (scaleValue : ℚ)
    (vectorSize polyDegree : ℕ) : Ct :=
  let encryptInn := if 1 < scaleValue then
      evalMult encryptedInput
        (makePtSparse (generate_scale_mask (cppToInt scaleValue) vectorSize) 0
          (nextPowerOf2 vectorSize))
    else cloneCt encryptedInput
  let s := if 1 < scaleValue then scaleValue else 1
  evalCheby (fun x => if x < 0 then 0 else s * x) encryptInn

/-- `std::max_element(first, last, cmp)` on a nonempty list: the first
element which no later element strictly exceeds (`cmp(best, v)` replaces
the running best).  The empty case (undefined in C++) returns 0. -/
def maxElementBy (cmp : ℚ → ℚ → Bool) : List ℚ → ℚ
  | [] => 0
  | x :: xs => xs.foldl (fun best v => if cmp best v then v else best) x

/-- `FHEONHEController::read_scaling_value` applied to the decrypted slot
vector: `std::max_element` with the comparator `[](int a, int b) {
std::abs(a) < std::abs(b) }` — which truncates both `double`s to `int`
before comparing — followed by `ceil(abs(·))`, with no power-of-two
rounding. -/
def read_scaling_value (decryptedVector : List ℚ) : ℤ :=
  let maxAbsValue := maxElementBy
    (fun a b => decide ((cppToInt a).natAbs < (cppToInt b).natAbs)) decryptedVector
  Int.ceil |maxAbsValue|

/-- `FHEONHEController::read_scaling_value_with_key` applied to the
decrypted slot vector: `std::max_element` with the exact `double`
comparator `|a| < |b|`, then `nextPowerOf2(ceil(abs(·)))`. -/
def read_scaling_value_with_key (decryptedVector : List ℚ) : ℕ :=
  let maxAbsValue := maxElementBy (fun a b => decide (|a| < |b|)) decryptedVector
  nextPowerOf2 (Int.ceil |maxAbsValue|).toNat

/-! ## Client input pipeline (`encryption_utils.cpp`,
`client_encode_encrypt_input.cpp`) -/

/-- `MNIST_DIM` (`encryption_utils.h`). -/
def MNIST_DIM : ℕ := 784

/-- `NORMALIZED_DIM` (`encryption_utils.h`). -/
def NORMALIZED_DIM : ℕ := 4096

/-- `load_dataset` for one line of the MNIST file: read `MNIST_DIM` floats
(missing values read as 0, as `operator>>` writes on failure), then pad
`sample.image` with zeros up to `NORMALIZED_DIM`. -/
def load_sample (line : List ℚ) : List ℚ :=
  ((List.range MNIST_DIM).map fun i => line.getD i 0)
    ++ List.replicate (NORMALIZED_DIM - MNIST_DIM) 0

/-- The per-pixel normalisation `(x - 0.1307f) / 0.3081f` of the client
(`client_encode_encrypt_input.cpp`), with the float constants read as the
decimals they denote. -/
def normalize_pixel (x : ℚ) : ℚ := (x - 1307 / 10000) / (3081 / 10000)

/-- The vector the client passes to encryption for one MNIST line: the
loaded sample (784 values zero-padded to `NORMALIZED_DIM`), then the
normalisation applied to every one of its `NORMALIZED_DIM` entries —
the padding included, since `main` normalises after `load_dataset` padded. -/
def client_input_vector (line : List ℚ) : List ℚ :=
  (load_sample line).map normalize_pixel

/-! ## Basic slot-evaluation lemmas -/

theorem evalMult_slots (c : Ct) (p : Pt) (i : ℤ) :
    (evalMult c p).slots i = c.slots i * ptAt p i := rfl

theorem evalAdd_slots (a b : Ct) (i : ℤ) :
    (evalAdd a b).slots i = a.slots i + b.slots i := rfl

theorem evalRotate_slots (c : Ct) (k i : ℤ) :
    (evalRotate c k).slots i = c.slots (i + k) := rfl

theorem evalMult_level (c : Ct) (p : Pt) : (evalMult c p).level = c.level + 1 := rfl

theorem evalAdd_level (a b : Ct) : (evalAdd a b).level = max a.level b.level := rfl

theorem evalRotate_level (c : Ct) (k : ℤ) : (evalRotate c k).level = c.level := rfl

theorem emod_toNat_self {N : ℕ} (p : ℕ) (h : p < N) :
    ((((p : ℕ) : ℤ)) % ((N : ℕ) : ℤ)).toNat = p := by
  rw [Int.emod_eq_of_lt (by positivity) (by exact_mod_cast h)]
  exact Int.toNat_natCast p

theorem getD_map_range (f : ℕ → ℚ) (n p : ℕ) (d : ℚ) :
    ((List.range n).map f).getD p d = if p < n then f p else d := by
  by_cases h : p < n
  · rw [List.getD_eq_getElem?_getD, List.getElem?_map, List.getElem?_range h]
    simp [h]
  · rw [List.getD_eq_getElem?_getD, List.getElem?_map, List.getElem?_eq_none (by simpa using h)]
    simp [h]

theorem getD_replicate_ite (a d : ℚ) (n p : ℕ) :
    (List.replicate n a).getD p d = if p < n then a else d := by
  by_cases h : p < n
  · rw [List.getD_eq_getElem?_getD, List.getElem?_replicate]
    simp [h]
  · rw [List.getD_eq_getElem?_getD, List.getElem?_eq_none (by simpa using h)]
    simp [h]

/-- Value of the `first_mask` vector at a position. -/
theorem first_mask_getD (W sz s p : ℕ) :
    (first_mask_vals W sz s).getD p 0 =
      if p < sz ∧ p < W * W ∧ (p % W) % s = 0 ∧ (p / W) % s = 0 then 1 else 0 := by
  rw [first_mask_vals, getD_map_range]
  by_cases h : p < sz <;> simp [h] <;> tauto

/-- Value of the `generate_row_mask` vector at a position, when the selected
row fits inside the vector. -/
theorem getD_append_ite (l l' : List ℚ) (p : ℕ) (d : ℚ) :
    (l ++ l').getD p d = if p < l.length then l.getD p d else l'.getD (p - l.length) d := by
  by_cases h : p < l.length
  · rw [if_pos h, List.getD_append _ _ _ _ h]
  · rw [if_neg h, List.getD_append_right _ _ _ _ (Nat.le_of_not_lt h)]

theorem row_mask_getD (r w sz p : ℕ) (h : r * w + w ≤ sz) :
    (generate_row_mask_vals r w sz).getD p 0 =
      if r * w ≤ p ∧ p < r * w + w then 1 else 0 := by
  rw [generate_row_mask_vals, getD_append_ite, getD_append_ite, getD_replicate_ite,
    getD_replicate_ite, getD_replicate_ite]
  simp only [List.length_append, List.length_replicate]
  split_ifs <;> first | rfl | omega

/-- Value of the `generate_zero_mask` vector at a position. -/
theorem zero_mask_getD (n p : ℕ) : (List.replicate n (0 : ℚ)).getD p 0 = 0 := by
  rw [getD_replicate_ite]
  split <;> rfl

/-- State of the `copy_interval` loop of `generate_binary_mask` after `n`
iterations: the list built so far is the repeating pattern of `pat` ones
then `pat` zeros, and the counter is `pat - n % (2*pat)`. -/
theorem binary_mask_fold_spec (pat : ℕ) (hp : 1 ≤ pat) (n : ℕ) :
    (List.range n).foldl
      (fun (st : List ℚ × ℤ) _ =>
        let v : ℚ := if 0 < st.2 then 1 else 0
        let ci := st.2 - 1
        (st.1 ++ [v], if ci ≤ -(pat : ℤ) then (pat : ℤ) else ci))
      ([], (pat : ℤ)) =
    ((List.range n).map (fun p => if p % (2 * pat) < pat then (1 : ℚ) else 0),
      (pat : ℤ) - (n % (2 * pat) : ℕ)) := by
  induction n with
  | zero => simp
  | succ n ih =>
    have hm : 0 < 2 * pat := by omega
    have h1 : n % (2 * pat) < 2 * pat := Nat.mod_lt _ hm
    rw [List.range_succ, List.foldl_append, ih]
    simp only [List.foldl_cons, List.foldl_nil, List.map_append, List.map_cons, List.map_nil]
    have hsucc : (n + 1) % (2 * pat) = (n % (2 * pat) + 1) % (2 * pat) := by
      conv_lhs => rw [Nat.add_mod, Nat.mod_eq_of_lt (by omega : 1 < 2 * pat)]
    have hval : (if (0 : ℤ) < (pat : ℤ) - (n % (2 * pat) : ℕ) then (1 : ℚ) else 0) =
        (if n % (2 * pat) < pat then (1 : ℚ) else 0) := by
      by_cases hc : n % (2 * pat) < pat
      · have hc1 : (0 : ℤ) < (pat : ℤ) - (n % (2 * pat) : ℕ) := by omega
        rw [if_pos hc1, if_pos hc]
      · have hc1 : ¬ ((0 : ℤ) < (pat : ℤ) - (n % (2 * pat) : ℕ)) := by omega
        rw [if_neg hc1, if_neg hc]
    refine Prod.ext (by rw [hval]) ?_
    show (if (pat : ℤ) - (n % (2 * pat) : ℕ) - 1 ≤ -(pat : ℤ) then (pat : ℤ)
      else (pat : ℤ) - (n % (2 * pat) : ℕ) - 1) = (pat : ℤ) - ((n + 1) % (2 * pat) : ℕ)
    by_cases hend : n % (2 * pat) = 2 * pat - 1
    · have h2 : (n + 1) % (2 * pat) = 0 := by
        rw [hsucc, hend, Nat.sub_add_cancel (by omega : 1 ≤ 2 * pat), Nat.mod_self]
      have hc1 : (pat : ℤ) - (n % (2 * pat) : ℕ) - 1 ≤ -(pat : ℤ) := by omega
      rw [if_pos hc1, h2]
      simp
    · have h2 : (n + 1) % (2 * pat) = n % (2 * pat) + 1 := by
        rw [hsucc, Nat.mod_eq_of_lt (by omega)]
      have hc1 : ¬ ((pat : ℤ) - (n % (2 * pat) : ℕ) - 1 ≤ -(pat : ℤ)) := by omega
      rw [if_neg hc1, h2]
      omega

/-- Value of the `generate_binary_mask` vector at a position. -/
theorem binary_mask_getD (pat sz p : ℕ) (hp : 1 ≤ pat) :
    (generate_binary_mask_vals (pat : ℤ) sz).getD p 0 =
      if p < sz ∧ p % (2 * pat) < pat then 1 else 0 := by
  rw [generate_binary_mask_vals]
  rw [show ((List.range sz).foldl
      (fun (st : List ℚ × ℤ) _ =>
        let v : ℚ := if 0 < st.2 then 1 else 0
        let ci := st.2 - 1
        (st.1 ++ [v], if ci ≤ -(pat : ℤ) then (pat : ℤ) else ci))
      ([], (pat : ℤ))) =
    ((List.range sz).map (fun p => if p % (2 * pat) < pat then (1 : ℚ) else 0),
      (pat : ℤ) - (sz % (2 * pat) : ℕ)) from binary_mask_fold_spec pat hp sz]
  rw [getD_map_range]
  by_cases h : p < sz <;> simp [h] <;> tauto

/-! ## Periodicity of the slot model -/

/-- A ciphertext state which is faithful to `N` packed slots: its slot
function is `N`-periodic. -/
def PeriodicCt (N : ℕ) (c : Ct) : Prop := ∀ z : ℤ, c.slots (z + N) = c.slots z

theorem ptAt_add_period (p : Pt) (z : ℤ) : ptAt p (z + p.per) = ptAt p z := by
  unfold ptAt
  rw [show z + (p.per : ℤ) = z + (p.per : ℤ) * 1 by ring, Int.add_mul_emod_self_left]

theorem periodic_ctOfVec (N : ℕ) (v : List ℚ) (lvl : ℕ) :
    PeriodicCt N (ctOfVec N v lvl) := by
  intro z
  show (v.getD ((z + N) % (N : ℤ)).toNat 0) = _
  rw [show z + (N : ℤ) = z + (N : ℤ) * 1 by ring, Int.add_mul_emod_self_left]
  rfl

theorem periodic_ctOfFun (N m : ℕ) (f : ℕ → ℚ) (lvl : ℕ) :
    PeriodicCt N (ctOfFun N m f lvl) := by
  intro z
  show (if ((z + N) % (N : ℤ)).toNat < m then f (((z + N) % (N : ℤ))).toNat else 0) = _
  rw [show z + (N : ℤ) = z + (N : ℤ) * 1 by ring, Int.add_mul_emod_self_left]
  rfl

theorem periodic_evalMult {N : ℕ} {c : Ct} (p : Pt) (hper : p.per = N)
    (h : PeriodicCt N c) : PeriodicCt N (evalMult c p) := by
  intro z
  show c.slots (z + N) * ptAt p (z + N) = c.slots z * ptAt p z
  rw [h z, show ((N : ℤ)) = (p.per : ℤ) by rw [hper], ptAt_add_period]

theorem periodic_evalAdd {N : ℕ} {a b : Ct} (ha : PeriodicCt N a) (hb : PeriodicCt N b) :
    PeriodicCt N (evalAdd a b) := by
  intro z
  show a.slots (z + N) + b.slots (z + N) = _
  rw [ha z, hb z]
  rfl

theorem periodic_evalRotate {N : ℕ} {c : Ct} (k : ℤ) (h : PeriodicCt N c) :
    PeriodicCt N (evalRotate c k) := by
  intro z
  show c.slots (z + N + k) = c.slots (z + k)
  rw [show z + N + k = (z + k) + N by ring, h]

theorem PeriodicCt.slots_emod {N : ℕ} {c : Ct} (h : PeriodicCt N c) (z : ℤ) :
    c.slots z = c.slots (z % (N : ℤ)) := by
  have hper : Function.Periodic c.slots ((N : ℕ) : ℤ) := h
  have h2 : c.slots (z - (z / (N : ℤ)) * (N : ℤ)) = c.slots z := hper.sub_int_mul_eq _
  rw [← h2]
  congr 1
  rw [Int.emod_def]
  ring

/-! ## Correctness of the stride-2 downsampler (claim C1) -/


/-- Content of the working ciphertext after `t` iterations of the doubling
loop of `downsample` with stride 2. -/
def dsPhi (f : ℕ → ℚ) (W t p : ℕ) : ℚ :=
  if p < W * W ∧ (p / W) % 2 = 0 ∧ (p % W) % 2 ^ (t + 1) < 2 ^ t
  then f ((p / W) * W + 2 * (((p % W) / 2 ^ (t + 1)) * 2 ^ t + (p % W) % 2 ^ (t + 1)))
  else 0

theorem add_mod_div_of_lt (a b W : ℕ) (h : a % W + b < W) :
    (a + b) % W = a % W + b ∧ (a + b) / W = a / W := by
  have hW : 0 < W := by omega
  have hd : a = W * (a / W) + a % W := (Nat.div_add_mod a W).symm
  constructor
  · conv_lhs => rw [hd]
    rw [Nat.add_assoc, Nat.mul_add_mod]
    exact Nat.mod_eq_of_lt h
  · conv_lhs => rw [hd]
    rw [Nat.add_assoc, Nat.mul_add_div hW]
    rw [Nat.div_eq_of_lt h, Nat.add_zero]

set_option maxHeartbeats 2000000 in
theorem dsLoop_spec (N k : ℕ) (hk : 2 ≤ k) (f : ℕ → ℚ) (lvl : ℕ)
    (hN : 2 ^ k * 2 ^ k + 2 ^ k ≤ N) :
    ∀ t, t ≤ k - 2 → ∀ p : ℕ, p ≤ 2 ^ k * 2 ^ k → p % 2 ^ k + 2 ^ t ≤ 2 ^ k →
    (dsLoop N (2 ^ k * 2 ^ k) 2 lvl
       (evalMult (cloneCt (ctOfFun N (2 ^ k * 2 ^ k) f lvl))
         (first_mask N (2 ^ k) (2 ^ k * 2 ^ k) 2 lvl)) t).slots p = dsPhi f (2 ^ k) t p := by
  have hW1 : 1 ≤ 2 ^ k := Nat.one_le_two_pow
  intro t
  induction t with
  | zero =>
    intro _ p hp hpm
    have hpN : p < N := by omega
    rw [dsLoop]
    simp only [List.range', List.foldl_nil]
    rw [evalMult_slots, cloneCt]
    show (ctOfFun N (2 ^ k * 2 ^ k) f lvl).slots p *
      ptAt (first_mask N (2 ^ k) (2 ^ k * 2 ^ k) 2 lvl) p = _
    rw [ctOfFun, first_mask, ptAt, makePt]
    simp only
    rw [emod_toNat_self p hpN, first_mask_getD, dsPhi]
    simp only [zero_add, pow_one, pow_zero, mul_one]
    obtain ⟨q, c, hcW, rfl⟩ : ∃ q c, c < 2 ^ k ∧ p = 2 ^ k * q + c :=
      ⟨p / 2 ^ k, p % 2 ^ k, Nat.mod_lt _ (by positivity), (Nat.div_add_mod p (2 ^ k)).symm⟩
    have hmodc : (2 ^ k * q + c) % 2 ^ k = c := by rw [Nat.mul_add_mod, Nat.mod_eq_of_lt hcW]
    have hdivc : (2 ^ k * q + c) / 2 ^ k = q := by
      rw [Nat.mul_add_div (by positivity), Nat.div_eq_of_lt hcW, Nat.add_zero]
    rw [hmodc, hdivc]
    rcases Nat.even_or_odd c with ⟨C, hC⟩ | ⟨C, hC⟩
    · subst hC
      rw [show (C + C) % 2 = 0 from by omega, show (C + C) / 2 = C from by omega]
      split_ifs <;> first
        | omega
        | (exfalso; tauto)
        | (simp only [add_zero, zero_add, mul_one, mul_zero, zero_mul] <;>
            first | rfl | (congr 1 <;> ring))
    · subst hC
      rw [show (2 * C + 1) % 2 = 1 from by omega]
      split_ifs <;> first
        | omega
        | (exfalso; tauto)
        | (simp only [add_zero, zero_add, mul_one, mul_zero, zero_mul] <;>
            first | rfl | (congr 1 <;> ring))
  | succ t ih =>
    intro ht p hp hpm
    have ht' : t ≤ k - 2 := by omega
    have hpN : p < N := by omega
    -- unfold one loop iteration
    rw [dsLoop, List.range'_concat, List.foldl_append]
    simp only [List.foldl_cons, List.foldl_nil, one_mul]
    rw [show (List.range' 1 t).foldl (dsLoopStep N (2 ^ k * 2 ^ k) 2 lvl)
        (evalMult (cloneCt (ctOfFun N (2 ^ k * 2 ^ k) f lvl))
          (first_mask N (2 ^ k) (2 ^ k * 2 ^ k) 2 lvl)) =
      dsLoop N (2 ^ k * 2 ^ k) 2 lvl
        (evalMult (cloneCt (ctOfFun N (2 ^ k * 2 ^ k) f lvl))
          (first_mask N (2 ^ k) (2 ^ k * 2 ^ k) 2 lvl)) t from rfl]
    rw [dsLoopStep]
    rw [evalMult_slots, evalAdd_slots, evalRotate_slots]
    rw [show (1 + t) - 1 = t from by omega]
    rw [show ((p : ℤ) + 2 ^ t) = ((p + 2 ^ t : ℕ) : ℤ) from by push_cast; ring]
    rw [generate_binary_mask, makePt, ptAt]
    simp only
    rw [emod_toNat_self p hpN]
    rw [show ((2 : ℤ) ^ (1 + t)) = ((2 ^ (1 + t) : ℕ) : ℤ) from by push_cast; ring]
    rw [binary_mask_getD _ _ _ (Nat.one_le_two_pow)]
    by_cases h1 : p < 2 ^ k * 2 ^ k
    case neg =>
      rw [if_neg (by tauto), mul_zero, dsPhi, if_neg (by tauto)]
    case pos =>
    -- apply the induction hypothesis at p and p + 2^t
    have hmod1 : p % 2 ^ k + 2 ^ t ≤ 2 ^ k := by
      have : (2:ℕ) ^ (t+1) = 2 ^ t + 2 ^ t := by ring
      omega
    have hq : p / 2 ^ k < 2 ^ k := Nat.div_lt_of_lt_mul h1
    have h2t : 1 ≤ 2 ^ t := Nat.one_le_two_pow
    have hstep := add_mod_div_of_lt p (2 ^ t) (2 ^ k) (by
      have hx : (2:ℕ) ^ (t+1) = 2 ^ t + 2 ^ t := by ring
      omega)
    have hp2 : p + 2 ^ t ≤ 2 ^ k * 2 ^ k := by
      have hdm := Nat.div_add_mod p (2 ^ k)
      nlinarith [hstep.1, hstep.2]
    have hmod2 : (p + 2 ^ t) % 2 ^ k + 2 ^ t ≤ 2 ^ k := by
      rw [hstep.1]
      have : (2:ℕ) ^ (t+1) = 2 ^ t + 2 ^ t := by ring
      omega
    rw [ih ht' p hp hmod1, ih ht' (p + 2 ^ t) hp2 hmod2]
    -- now pure arithmetic on dsPhi
    rw [dsPhi, dsPhi, dsPhi]
    have h2t : (0:ℕ) < 2 ^ t := Nat.pos_pow_of_pos t (by omega)
    have hqq : (p + 2 ^ t) / 2 ^ k = p / 2 ^ k := hstep.2
    have hcc : (p + 2 ^ t) % 2 ^ k = p % 2 ^ k + 2 ^ t := hstep.1
    -- the binary mask condition is a condition on p % 2^k
    have hdvd2 : ((2:ℕ) ^ (t + 2)) ∣ 2 ^ k := pow_dvd_pow 2 (by omega)
    have hbmc : p % 2 ^ (t + 2) = (p % 2 ^ k) % 2 ^ (t + 2) := (Nat.mod_mod_of_dvd p hdvd2).symm
    rw [show (2:ℕ) * 2 ^ (1 + t) = 2 ^ (t + 2) from by ring, hbmc]
    rw [show (2:ℕ) ^ (1 + t) = 2 ^ (t + 1) from by ring]
    -- destructure p into (row, column) and the column into its bit components
    obtain ⟨q, c, hcW, rfl⟩ : ∃ q c, c < 2 ^ k ∧ p = 2 ^ k * q + c :=
      ⟨p / 2 ^ k, p % 2 ^ k, Nat.mod_lt _ (by positivity), (Nat.div_add_mod p (2 ^ k)).symm⟩
    have hmodc : (2 ^ k * q + c) % 2 ^ k = c := by rw [Nat.mul_add_mod, Nat.mod_eq_of_lt hcW]
    have hdivc : (2 ^ k * q + c) / 2 ^ k = q := by
      rw [Nat.mul_add_div (by positivity), Nat.div_eq_of_lt hcW, Nat.add_zero]
    have hmodc2 : (2 ^ k * q + c + 2 ^ t) % 2 ^ k = c + 2 ^ t := by
      rw [hcc, hmodc]
    have hdivc2 : (2 ^ k * q + c + 2 ^ t) / 2 ^ k = q := by rw [hqq, hdivc]
    rw [hmodc, hdivc, hmodc2, hdivc2]
    have hpm' : c + 2 ^ (t + 1) ≤ 2 ^ k := by
      rw [hmodc] at hpm
      exact hpm
    have hqk : q < 2 ^ k := by
      rw [hdivc] at hq
      exact hq
    have hp2' : 2 ^ k * q + c + 2 ^ t < 2 ^ k * 2 ^ k := by
      have h2 : (2:ℕ) ^ (t + 1) = 2 ^ t + 2 ^ t := by ring
      calc 2 ^ k * q + c + 2 ^ t < 2 ^ k * q + 2 ^ k := by omega
        _ = 2 ^ k * (q + 1) := by ring
        _ ≤ 2 ^ k * 2 ^ k := Nat.mul_le_mul_left _ (by omega)
    obtain ⟨g, e, heT, rfl⟩ : ∃ g e, e < 2 ^ (t + 1) ∧ c = 2 ^ (t + 1) * g + e :=
      ⟨c / 2 ^ (t + 1), c % 2 ^ (t + 1), Nat.mod_lt _ (by positivity),
        (Nat.div_add_mod c (2 ^ (t + 1))).symm⟩
    have hpow1 : (2:ℕ) ^ (t + 1) = 2 ^ t + 2 ^ t := by ring
    have hpow2 : (2:ℕ) ^ (t + 2) = 2 ^ (t + 1) + 2 ^ (t + 1) := by ring
    rcases Nat.even_or_odd g with ⟨G, hG⟩ | ⟨G, hG⟩
    · -- g even: the position is kept by the binary mask
      subst hG
      have hDm : (2 ^ (t + 1) * (G + G) + e) % 2 ^ (t + 2) = e := by
        rw [show (2:ℕ) ^ (t + 1) * (G + G) + e = 2 ^ (t + 2) * G + e from by ring,
          Nat.mul_add_mod, Nat.mod_eq_of_lt (by omega)]
      have hDd : (2 ^ (t + 1) * (G + G) + e) / 2 ^ (t + 2) = G := by
        rw [show (2:ℕ) ^ (t + 1) * (G + G) + e = 2 ^ (t + 2) * G + e from by ring,
          Nat.mul_add_div (by positivity), Nat.div_eq_of_lt (by omega), Nat.add_zero]
      have hem : (2 ^ (t + 1) * (G + G) + e) % 2 ^ (t + 1) = e := by
        rw [Nat.mul_add_mod, Nat.mod_eq_of_lt heT]
      have hed : (2 ^ (t + 1) * (G + G) + e) / 2 ^ (t + 1) = G + G := by
        rw [Nat.mul_add_div (by positivity), Nat.div_eq_of_lt heT, Nat.add_zero]
      rcases lt_or_le e (2 ^ t) with he1 | he1
      · -- e < 2^t: the left summand carries the value
        have hem2 : (2 ^ (t + 1) * (G + G) + e + 2 ^ t) % 2 ^ (t + 1) = e + 2 ^ t := by
          rw [Nat.add_assoc, Nat.mul_add_mod, Nat.mod_eq_of_lt (by omega)]
        have hed2 : (2 ^ (t + 1) * (G + G) + e + 2 ^ t) / 2 ^ (t + 1) = G + G := by
          rw [Nat.add_assoc, Nat.mul_add_div (by positivity),
            Nat.div_eq_of_lt (by omega), Nat.add_zero]
        rw [hDm, hDd, hem, hed, hem2, hed2]
        split_ifs <;> first
          | omega
          | (exfalso; tauto)
          | (simp only [add_zero, zero_add, mul_one, mul_zero, zero_mul] <;>
              first | rfl | (congr 1 <;> ring))
      · -- 2^t ≤ e: the rotated summand carries the value
        obtain ⟨e', rfl⟩ : ∃ e', e = 2 ^ t + e' := ⟨e - 2 ^ t, by omega⟩
        have hem2 : (2 ^ (t + 1) * (G + G) + (2 ^ t + e') + 2 ^ t) % 2 ^ (t + 1) = e' := by
          rw [show 2 ^ (t + 1) * (G + G) + (2 ^ t + e') + 2 ^ t =
            2 ^ (t + 1) * (G + G + 1) + e' from by ring, Nat.mul_add_mod,
            Nat.mod_eq_of_lt (by omega)]
        have hed2 : (2 ^ (t + 1) * (G + G) + (2 ^ t + e') + 2 ^ t) / 2 ^ (t + 1) =
            G + G + 1 := by
          rw [show 2 ^ (t + 1) * (G + G) + (2 ^ t + e') + 2 ^ t =
            2 ^ (t + 1) * (G + G + 1) + e' from by ring, Nat.mul_add_div (by positivity),
            Nat.div_eq_of_lt (by omega), Nat.add_zero]
        rw [hDm, hDd, hem, hed, hem2, hed2]
        split_ifs <;> first
          | omega
          | (exfalso; tauto)
          | (simp only [add_zero, zero_add, mul_one, mul_zero, zero_mul] <;>
              first | rfl | (congr 1 <;> ring))
    · -- g odd: the position is dropped by the binary mask
      subst hG
      have hDm : (2 ^ (t + 1) * (2 * G + 1) + e) % 2 ^ (t + 2) = 2 ^ (t + 1) + e := by
        rw [show (2:ℕ) ^ (t + 1) * (2 * G + 1) + e = 2 ^ (t + 2) * G + (2 ^ (t + 1) + e)
          from by ring, Nat.mul_add_mod, Nat.mod_eq_of_lt (by omega)]
      rw [hDm]
      split_ifs <;> first
        | omega
        | (exfalso; tauto)
        | (simp only [add_zero, zero_add, mul_one, mul_zero, zero_mul] <;>
            first | rfl | (congr 1 <;> ring))

theorem two_pow_div_two (k : ℕ) (hk : 1 ≤ k) : 2 ^ k / 2 = 2 ^ (k - 1) := by
  obtain ⟨K, rfl⟩ : ∃ K, k = K + 1 := ⟨k - 1, by omega⟩
  rw [pow_succ, Nat.mul_div_cancel _ (by omega)]
  simp

set_option maxHeartbeats 1000000 in
/-- Content of the juxtaposed ciphertext (end of Step 1 of `downsample`,
stride 2) on the positions the row phase reads: within a row, the first
`2^(k-1)` slots of an even row hold that row's even columns, compacted. -/
theorem dsJuxtapose_spec (N k : ℕ) (hk : 2 ≤ k) (f : ℕ → ℚ) (lvl : ℕ)
    (hN : 2 ^ k * 2 ^ k + 2 ^ k ≤ N) (p : ℕ) (hp : p < 2 ^ k * 2 ^ k)
    (hc : p % 2 ^ k < 2 ^ (k - 1)) :
    (dsJuxtapose N (ctOfFun N (2 ^ k * 2 ^ k) f lvl) (2 ^ k) 2).slots p =
      if (p / 2 ^ k) % 2 = 0 then f ((p / 2 ^ k) * 2 ^ k + 2 * (p % 2 ^ k)) else 0 := by
  obtain ⟨K, rfl⟩ : ∃ K, k = K + 2 := ⟨k - 2, by omega⟩
  have hW1 : 1 ≤ 2 ^ (K + 2) := Nat.one_le_two_pow
  have hTpos : 1 ≤ 2 ^ K := Nat.one_le_two_pow
  have how : 2 ^ (K + 2) / 2 = 2 ^ (K + 1) := two_pow_div_two (K + 2) (by omega)
  have how2 : 2 ^ (K + 1) / 2 = 2 ^ K := two_pow_div_two (K + 1) (by omega)
  have hclog : Nat.clog 2 (2 ^ (K + 1)) = K + 1 := Nat.clog_pow 2 (K + 1) (by omega)
  have hlvl : (ctOfFun N (2 ^ (K + 2) * 2 ^ (K + 2)) f lvl).level = lvl := rfl
  rw [dsJuxtapose]
  simp only [hlvl, how, how2, hclog]
  rw [evalAdd_slots, evalRotate_slots]
  rw [show ((p : ℤ) + ((2 ^ K : ℕ) : ℤ)) = ((p + 2 ^ K : ℕ) : ℤ) from by push_cast; ring]
  have hKk : K + 1 - 1 = K := by omega
  rw [hKk]
  -- apply the loop invariant at p and p + 2^K, with t = K
  obtain ⟨q, c, hcW, rfl⟩ : ∃ q c, c < 2 ^ (K + 1) ∧ p = 2 ^ (K + 2) * q + c := by
    refine ⟨p / 2 ^ (K + 2), p % 2 ^ (K + 2), ?_, (Nat.div_add_mod p (2 ^ (K + 2))).symm⟩
    simpa using hc
  have hqk : q < 2 ^ (K + 2) := by
    by_contra hq
    have : 2 ^ (K + 2) * 2 ^ (K + 2) ≤ 2 ^ (K + 2) * q := Nat.mul_le_mul_left _ (by omega)
    omega
  have hcW' : c < 2 ^ (K + 2) := by
    have : (2:ℕ) ^ (K + 2) = 2 ^ (K + 1) + 2 ^ (K + 1) := by ring
    omega
  have hmodc : (2 ^ (K + 2) * q + c) % 2 ^ (K + 2) = c := by
    rw [Nat.mul_add_mod, Nat.mod_eq_of_lt hcW']
  have hdivc : (2 ^ (K + 2) * q + c) / 2 ^ (K + 2) = q := by
    rw [Nat.mul_add_div (by positivity), Nat.div_eq_of_lt hcW', Nat.add_zero]
  have hpow1 : (2:ℕ) ^ (K + 1) = 2 ^ K + 2 ^ K := by ring
  have hpow2 : (2:ℕ) ^ (K + 2) = 2 ^ (K + 1) + 2 ^ (K + 1) := by ring
  have hmodc2 : (2 ^ (K + 2) * q + c + 2 ^ K) % 2 ^ (K + 2) = c + 2 ^ K := by
    rw [Nat.add_assoc, Nat.mul_add_mod, Nat.mod_eq_of_lt (by omega)]
  have hdivc2 : (2 ^ (K + 2) * q + c + 2 ^ K) / 2 ^ (K + 2) = q := by
    rw [Nat.add_assoc, Nat.mul_add_div (by positivity), Nat.div_eq_of_lt (by omega),
      Nat.add_zero]
  have hs1 := dsLoop_spec N (K + 2) hk f lvl hN K (by omega) (2 ^ (K + 2) * q + c)
    (by omega) (by rw [hmodc]; omega)
  have hp2 : 2 ^ (K + 2) * q + c + 2 ^ K ≤ 2 ^ (K + 2) * 2 ^ (K + 2) := by
    calc 2 ^ (K + 2) * q + c + 2 ^ K ≤ 2 ^ (K + 2) * q + 2 ^ (K + 2) := by omega
      _ = 2 ^ (K + 2) * (q + 1) := by ring
      _ ≤ 2 ^ (K + 2) * 2 ^ (K + 2) := Nat.mul_le_mul_left _ (by omega)
  have hs2 := dsLoop_spec N (K + 2) hk f lvl hN K (by omega) (2 ^ (K + 2) * q + c + 2 ^ K)
    hp2 (by rw [hmodc2]; omega)
  rw [hs1, hs2, dsPhi, dsPhi]
  rw [hmodc, hdivc, hmodc2, hdivc2]
  by_cases hqe : q % 2 = 0
  case neg =>
    rw [if_neg (by tauto), if_neg (by tauto), if_neg hqe]
    rw [add_zero]
  case pos =>
  rw [if_pos hqe]
  rcases lt_or_le c (2 ^ K) with he1 | he1
  · -- c < 2^K: left summand carries the value
    have hm1 : c % 2 ^ (K + 1) = c := Nat.mod_eq_of_lt (by omega)
    have hd1 : c / 2 ^ (K + 1) = 0 := Nat.div_eq_of_lt (by omega)
    have hm2 : (c + 2 ^ K) % 2 ^ (K + 1) = c + 2 ^ K := Nat.mod_eq_of_lt (by omega)
    rw [hm1, hd1, hm2]
    rw [if_pos ⟨hp, hqe, by omega⟩, if_neg (by rintro ⟨-, -, h⟩; omega), add_zero]
    congr 1 <;> ring
  · -- 2^K ≤ c: rotated summand carries the value
    obtain ⟨e', rfl⟩ : ∃ e', c = 2 ^ K + e' := ⟨c - 2 ^ K, by omega⟩
    have he'T : e' < 2 ^ K := by omega
    have hm1 : (2 ^ K + e') % 2 ^ (K + 1) = 2 ^ K + e' := Nat.mod_eq_of_lt (by omega)
    have hm2 : (2 ^ K + e' + 2 ^ K) % 2 ^ (K + 1) = e' := by
      rw [show 2 ^ K + e' + 2 ^ K = 2 ^ (K + 1) * 1 + e' from by ring, Nat.mul_add_mod,
        Nat.mod_eq_of_lt (by omega)]
    have hd2 : (2 ^ K + e' + 2 ^ K) / 2 ^ (K + 1) = 1 := by
      rw [show 2 ^ K + e' + 2 ^ K = 2 ^ (K + 1) * 1 + e' from by ring,
        Nat.mul_add_div (by positivity), Nat.div_eq_of_lt (by omega), Nat.add_zero]
    rw [hm1, hm2, hd2]
    have hp2' : 2 ^ (K + 2) * q + (2 ^ K + e') + 2 ^ K < 2 ^ (K + 2) * 2 ^ (K + 2) := by
      calc 2 ^ (K + 2) * q + (2 ^ K + e') + 2 ^ K < 2 ^ (K + 2) * q + 2 ^ (K + 2) := by omega
        _ = 2 ^ (K + 2) * (q + 1) := by ring
        _ ≤ 2 ^ (K + 2) * 2 ^ (K + 2) := Nat.mul_le_mul_left _ (by omega)
    rw [if_neg (by rintro ⟨-, -, h⟩; omega), if_pos ⟨hp2', hqe, by omega⟩, zero_add]
    congr 1 <;> ring

theorem dz_slots (N sz lvl : ℕ) (input : Ct) (z : ℤ) :
    (evalMult input (generate_zero_mask N sz lvl)).slots z = 0 := by
  rw [evalMult_slots, generate_zero_mask, makePt, ptAt]
  simp only
  rw [zero_mask_getD, mul_zero]

theorem dsRows_fold (N W ow sz lvl : ℕ) (A dz0 : Ct) (hdz : ∀ z : ℤ, dz0.slots z = 0)
    (hsz : ow * ow ≤ sz) (hszN : sz ≤ N) :
    ∀ r, r ≤ ow →
    ((r < ow → ∀ z : ℤ, ((List.range r).foldl (dsRowStep N W 2 ow sz lvl) (A, dz0)).1.slots z =
       A.slots (z + (r : ℤ) * (((2 * W : ℕ) : ℤ) - (ow : ℕ)))) ∧
    (∀ p : ℕ, p < N → ((List.range r).foldl (dsRowStep N W 2 ow sz lvl) (A, dz0)).2.slots p =
       if p < r * ow then A.slots ((p : ℤ) + ((p / ow : ℕ) : ℤ) * (((2 * W : ℕ) : ℤ) - (ow : ℕ)))
       else 0)) := by
  intro r
  induction r with
  | zero =>
    intro _
    constructor
    · intro _ z
      simp
    · intro p hpN
      rw [if_neg (by omega)]
      simp only [List.range_zero, List.foldl_nil]
      exact hdz p
  | succ r ih =>
    intro hr
    have hrow : r < ow := by omega
    obtain ⟨ihres, ihacc⟩ := ih (by omega)
    rw [List.range_succ, List.foldl_append]
    simp only [List.foldl_cons, List.foldl_nil]
    set st := (List.range r).foldl (dsRowStep N W 2 ow sz lvl) (A, dz0) with hst
    constructor
    · -- working ciphertext after r+1 steps
      intro hr1 z
      rw [dsRowStep]
      simp only
      rw [if_pos (by omega : r < ow - 1)]
      rw [evalRotate_slots, ihres hrow]
      congr 1
      push_cast
      ring
    · intro p hpN
      rw [dsRowStep]
      simp only
      rw [evalAdd_slots, evalMult_slots, ihacc p hpN]
      rw [generate_row_mask, makePt, ptAt]
      simp only
      rw [emod_toNat_self p hpN]
      rw [row_mask_getD _ _ _ _ (by
        calc r * ow + ow = (r + 1) * ow := by ring
          _ ≤ ow * ow := Nat.mul_le_mul_right _ (by omega)
          _ ≤ sz := hsz)]
      rw [show (r + 1) * ow = r * ow + ow from Nat.succ_mul r ow]
      rcases lt_or_le p (r * ow) with hp1 | hp1
      · rw [if_pos hp1, if_pos (show p < r * ow + ow from by omega),
          if_neg (show ¬ (r * ow ≤ p ∧ p < r * ow + ow) from by omega), mul_zero, add_zero]
      · rcases lt_or_le p (r * ow + ow) with hp2 | hp2
        · rw [if_neg (show ¬ p < r * ow from by omega), zero_add,
            if_pos (show r * ow ≤ p ∧ p < r * ow + ow from ⟨hp1, hp2⟩), mul_one,
            if_pos (show p < r * ow + ow from hp2)]
          rw [ihres hrow]
          have hdiv : p / ow = r := Nat.div_eq_of_lt_le hp1 (by rw [Nat.succ_mul]; omega)
          rw [hdiv]
        · rw [if_neg (show ¬ p < r * ow from by omega), zero_add,
            if_neg (show ¬ (r * ow ≤ p ∧ p < r * ow + ow) from by omega), mul_zero,
            if_neg (show ¬ p < r * ow + ow from by omega)]

theorem periodic_foldRows (N W s ow sz lvl : ℕ) (l : List ℕ) :
    ∀ st : Ct × Ct, PeriodicCt N st.1 → PeriodicCt N st.2 →
    PeriodicCt N (l.foldl (dsRowStep N W s ow sz lvl) st).1 ∧
    PeriodicCt N (l.foldl (dsRowStep N W s ow sz lvl) st).2 := by
  induction l with
  | nil => exact fun st h1 h2 => ⟨h1, h2⟩
  | cons a l ih =>
    intro st h1 h2
    simp only [List.foldl_cons]
    refine ih _ ?_ ?_
    · rw [dsRowStep]
      simp only
      split
      · exact periodic_evalRotate _ h1
      · exact h1
    · exact periodic_evalAdd h2 (periodic_evalMult _ rfl h1)

theorem periodic_dsLoopFold (N sz s lvl : ℕ) (l : List ℕ) :
    ∀ c : Ct, PeriodicCt N c → PeriodicCt N (l.foldl (dsLoopStep N sz s lvl) c) := by
  induction l with
  | nil => exact fun c h => h
  | cons a l ih =>
    intro c h
    simp only [List.foldl_cons]
    exact ih _ (periodic_evalMult _ rfl (periodic_evalAdd h (periodic_evalRotate _ h)))

theorem periodic_downsample (N W s : ℕ) (input : Ct) (h : PeriodicCt N input) :
    PeriodicCt N (downsample N input W s) := by
  rw [downsample]
  refine (periodic_foldRows N W s (W / s) (W * W) input.level _ _ ?_ ?_).2
  · rw [dsJuxtapose]
    have hloop : PeriodicCt N (dsLoop N (W * W) s input.level
        (evalMult (cloneCt input) (first_mask N W (W * W) s input.level))
        (Nat.clog 2 (W / s) - 1)) := by
      rw [dsLoop]
      exact periodic_dsLoopFold _ _ _ _ _ _ (periodic_evalMult _ rfl h)
    exact periodic_evalAdd hloop (periodic_evalRotate _ hloop)
  · exact periodic_evalMult _ rfl h

set_option maxHeartbeats 1000000 in
/-- Full behaviour of `downsample` for stride 2 on a `2^k × 2^k` single-channel
tile: the first `(2^(k-1))²` slots receive the 2-strided subsample in
row-major order, and every other slot of the ring is zero. -/
theorem downsample_stride2_spec (N k : ℕ) (f : ℕ → ℚ) (lvl : ℕ) (hk : 2 ≤ k)
    (hN : 2 ^ k * 2 ^ k + 2 ^ k ≤ N) :
    (∀ i j : ℕ, i < 2 ^ (k - 1) → j < 2 ^ (k - 1) →
      (downsample N (ctOfFun N (2 ^ k * 2 ^ k) f lvl) (2 ^ k) 2).slots
          ((i * 2 ^ (k - 1) + j : ℕ) : ℤ) = f ((2 * i) * 2 ^ k + 2 * j)) ∧
    (∀ z : ℤ, (2 ^ (k - 1) * 2 ^ (k - 1) : ℕ) ≤ ((z % (N : ℤ)).toNat) →
      (downsample N (ctOfFun N (2 ^ k * 2 ^ k) f lvl) (2 ^ k) 2).slots z = 0) := by
  obtain ⟨K, rfl⟩ : ∃ K, k = K + 2 := ⟨k - 2, by omega⟩
  have hW1 : 1 ≤ 2 ^ (K + 2) := Nat.one_le_two_pow
  have hTpos : 1 ≤ 2 ^ K := Nat.one_le_two_pow
  have how : 2 ^ (K + 2) / 2 = 2 ^ (K + 1) := two_pow_div_two (K + 2) (by omega)
  have hKs : K + 2 - 1 = K + 1 := by omega
  have howow : 2 ^ (K + 1) * 2 ^ (K + 1) ≤ 2 ^ (K + 2) * 2 ^ (K + 2) :=
    Nat.mul_le_mul (Nat.pow_le_pow_right (by omega) (by omega))
      (Nat.pow_le_pow_right (by omega) (by omega))
  have hszN : 2 ^ (K + 2) * 2 ^ (K + 2) ≤ N := by omega
  have hfold := dsRows_fold N (2 ^ (K + 2)) (2 ^ (K + 1)) (2 ^ (K + 2) * 2 ^ (K + 2)) lvl
    (dsJuxtapose N (ctOfFun N (2 ^ (K + 2) * 2 ^ (K + 2)) f lvl) (2 ^ (K + 2)) 2)
    (evalMult (ctOfFun N (2 ^ (K + 2) * 2 ^ (K + 2)) f lvl)
      (generate_zero_mask N (2 ^ (K + 2) * 2 ^ (K + 2)) lvl))
    (dz_slots N (2 ^ (K + 2) * 2 ^ (K + 2)) lvl _) howow hszN (2 ^ (K + 1)) (le_refl _)
  have hout : ∀ p : ℕ, p < N →
      (downsample N (ctOfFun N (2 ^ (K + 2) * 2 ^ (K + 2)) f lvl) (2 ^ (K + 2)) 2).slots p =
      if p < 2 ^ (K + 1) * 2 ^ (K + 1) then
        (dsJuxtapose N (ctOfFun N (2 ^ (K + 2) * 2 ^ (K + 2)) f lvl) (2 ^ (K + 2)) 2).slots
          ((p : ℤ) + ((p / 2 ^ (K + 1) : ℕ) : ℤ) *
            (((2 * 2 ^ (K + 2) : ℕ) : ℤ) - ((2 ^ (K + 1) : ℕ) : ℤ)))
      else 0 := by
    intro p hpN
    have := hfold.2 p hpN
    rw [downsample]
    simp only [how, hKs]
    exact this
  constructor
  · intro i j hi hj
    rw [hKs]
    have hiK : i < 2 ^ (K + 1) := by rw [hKs] at hi; exact hi
    have hjK : j < 2 ^ (K + 1) := by rw [hKs] at hj; exact hj
    have hplt : i * 2 ^ (K + 1) + j < 2 ^ (K + 1) * 2 ^ (K + 1) := by
      calc i * 2 ^ (K + 1) + j < i * 2 ^ (K + 1) + 2 ^ (K + 1) := by omega
        _ = (i + 1) * 2 ^ (K + 1) := by ring
        _ ≤ 2 ^ (K + 1) * 2 ^ (K + 1) := Nat.mul_le_mul_right _ (by omega)
    have hpN : i * 2 ^ (K + 1) + j < N := by omega
    rw [hout _ hpN, if_pos hplt]
    have hdiv : (i * 2 ^ (K + 1) + j) / 2 ^ (K + 1) = i :=
      Nat.div_eq_of_lt_le (by rw [Nat.mul_comm]; omega)
        (by rw [Nat.succ_mul]; omega)
    rw [hdiv]
    have harg : ((i * 2 ^ (K + 1) + j : ℕ) : ℤ) + (i : ℤ) *
        (((2 * 2 ^ (K + 2) : ℕ) : ℤ) - ((2 ^ (K + 1) : ℕ) : ℤ)) =
        ((i * (2 * 2 ^ (K + 2)) + j : ℕ) : ℤ) := by
      push_cast
      ring
    rw [harg]
    have hp0 : i * (2 * 2 ^ (K + 2)) + j < 2 ^ (K + 2) * 2 ^ (K + 2) := by
      have h1 : i * (2 * 2 ^ (K + 2)) + j < (i + 1) * (2 * 2 ^ (K + 2)) := by
        have : j < 2 * 2 ^ (K + 2) := by
          have : (2:ℕ) ^ (K + 1) ≤ 2 * 2 ^ (K + 2) := by
            have : (2:ℕ) ^ (K + 1) ≤ 2 ^ (K + 2) := Nat.pow_le_pow_right (by omega) (by omega)
            omega
          omega
        calc i * (2 * 2 ^ (K + 2)) + j < i * (2 * 2 ^ (K + 2)) + 2 * 2 ^ (K + 2) := by omega
          _ = (i + 1) * (2 * 2 ^ (K + 2)) := by ring
      have h2 : (i + 1) * (2 * 2 ^ (K + 2)) ≤ 2 ^ (K + 1) * (2 * 2 ^ (K + 2)) :=
        Nat.mul_le_mul_right _ (by omega)
      have h3 : 2 ^ (K + 1) * (2 * 2 ^ (K + 2)) = 2 ^ (K + 2) * 2 ^ (K + 2) := by ring
      omega
    have hmod0 : (i * (2 * 2 ^ (K + 2)) + j) % 2 ^ (K + 2) = j := by
      rw [show i * (2 * 2 ^ (K + 2)) + j = 2 ^ (K + 2) * (2 * i) + j from by ring,
        Nat.mul_add_mod, Nat.mod_eq_of_lt (by
          have : (2:ℕ) ^ (K + 1) ≤ 2 ^ (K + 2) := Nat.pow_le_pow_right (by omega) (by omega)
          omega)]
    have hdiv0 : (i * (2 * 2 ^ (K + 2)) + j) / 2 ^ (K + 2) = 2 * i := by
      rw [show i * (2 * 2 ^ (K + 2)) + j = 2 ^ (K + 2) * (2 * i) + j from by ring,
        Nat.mul_add_div (by positivity), Nat.div_eq_of_lt (by
          have : (2:ℕ) ^ (K + 1) ≤ 2 ^ (K + 2) := Nat.pow_le_pow_right (by omega) (by omega)
          omega), Nat.add_zero]
    rw [dsJuxtapose_spec N (K + 2) hk f lvl hN _ hp0 (by rw [hmod0, hKs]; omega)]
    rw [hdiv0, hmod0]
    rw [if_pos (show (2 * i) % 2 = 0 from by omega)]
  · intro z hz
    have hper : PeriodicCt N
        (downsample N (ctOfFun N (2 ^ (K + 2) * 2 ^ (K + 2)) f lvl) (2 ^ (K + 2)) 2) :=
      periodic_downsample N (2 ^ (K + 2)) 2 _ (periodic_ctOfFun N _ f lvl)
    rw [hper.slots_emod z]
    have hzN : (z % (N : ℤ)).toNat < N := by
      have h0 : (0 : ℤ) < (N : ℤ) := by exact_mod_cast (by omega : 0 < N)
      have := Int.emod_lt_of_pos z h0
      have h1 := Int.emod_nonneg z (by omega : (N : ℤ) ≠ 0)
      omega
    have hcast : ((z % (N : ℤ)).toNat : ℤ) = z % (N : ℤ) := by
      have h1 := Int.emod_nonneg z (by exact_mod_cast (by omega : ¬ (N:ℕ) = 0) : (N : ℤ) ≠ 0)
      omega
    rw [← hcast, hout _ hzN]
    rw [hKs] at hz
    rw [if_neg (by omega)]



/-! ## Level accounting for the downsampler (claim C3)

Every `EvalMult` by a plaintext mask costs one level; rotations and
additions are free.  The lemmas below compute the exact level of the
ciphertext returned by `downsample` and
`downsample_with_multiple_channels`. -/

theorem foldLoop_level (step : Ct → ℕ → Ct) (hstep : ∀ c i, (step c i).level = c.level + 1) :
    ∀ (l : List ℕ) (c : Ct), (l.foldl step c).level = c.level + l.length := by
  intro l
  induction l with
  | nil => intro c; simp
  | cons a l ih =>
    intro c
    simp only [List.foldl_cons, List.length_cons]
    rw [ih, hstep]
    omega

theorem foldPair_level (step : Ct × Ct → ℕ → Ct × Ct)
    (hstep : ∀ st i, ((step st i).1.level = st.1.level) ∧
      ((step st i).2.level = max st.2.level (st.1.level + 1))) :
    ∀ (a : ℕ) (l : List ℕ) (st : Ct × Ct),
      (((a :: l).foldl step st).1.level = st.1.level) ∧
      (((a :: l).foldl step st).2.level = max st.2.level (st.1.level + 1)) := by
  intro a l
  induction l generalizing a with
  | nil =>
    intro st
    simp only [List.foldl_cons, List.foldl_nil]
    exact hstep st a
  | cons b l ih =>
    intro st
    rw [List.foldl_cons]
    obtain ⟨h1, h2⟩ := ih b (step st a)
    obtain ⟨h3, h4⟩ := hstep st a
    refine ⟨by rw [h1, h3], ?_⟩
    rw [h2, h3, h4]
    omega

theorem dsLoopStep_level (N sz s lvl : ℕ) (c : Ct) (i : ℕ) :
    (dsLoopStep N sz s lvl c i).level = c.level + 1 := by
  simp [dsLoopStep, evalMult, evalAdd, evalRotate]

theorem dsLoopStepCh_level (N sz s nc lvl : ℕ) (c : Ct) (i : ℕ) :
    (dsLoopStepCh N sz s nc lvl c i).level = c.level + 1 := by
  simp [dsLoopStepCh, evalMult, evalAdd, evalRotate]

theorem dsRowStep_level (N W s ow sz lvl : ℕ) (st : Ct × Ct) (i : ℕ) :
    ((dsRowStep N W s ow sz lvl st i).1.level = st.1.level) ∧
    ((dsRowStep N W s ow sz lvl st i).2.level = max st.2.level (st.1.level + 1)) := by
  rw [dsRowStep]
  constructor
  · simp only
    split <;> rfl
  · rfl

theorem dsRowStepCh_level (N W s ow sz nc lvl : ℕ) (st : Ct × Ct) (i : ℕ) :
    ((dsRowStepCh N W s ow sz nc lvl st i).1.level = st.1.level) ∧
    ((dsRowStepCh N W s ow sz nc lvl st i).2.level = max st.2.level (st.1.level + 1)) := by
  rw [dsRowStepCh]
  constructor
  · simp only
    split <;> rfl
  · rfl

theorem dsChanStep_level (N os sz nc lvl : ℕ) (st : Ct × Ct) (i : ℕ) :
    ((dsChanStep N os sz nc lvl st i).1.level = st.1.level) ∧
    ((dsChanStep N os sz nc lvl st i).2.level = max st.2.level (st.1.level + 1)) := by
  rw [dsChanStep]
  constructor
  · simp only
    split <;> rfl
  · rfl

theorem foldPair_snd_level (step : Ct × Ct → ℕ → Ct × Ct)
    (hstep : ∀ st i, ((step st i).1.level = st.1.level) ∧
      ((step st i).2.level = max st.2.level (st.1.level + 1)))
    (n : ℕ) (hn : 1 ≤ n) (a b : Ct) :
    (((List.range n).foldl step (a, b)).2.level = max b.level (a.level + 1)) := by
  obtain ⟨m, rfl⟩ : ∃ m, n = m + 1 := ⟨n - 1, by omega⟩
  rw [List.range_succ_eq_map]
  exact (foldPair_level step hstep 0 ((List.range m).map Nat.succ) (a, b)).2

theorem dsJuxtapose_level (N W s : ℕ) (c : Ct) :
    (dsJuxtapose N c W s).level = c.level + 1 + (Nat.clog 2 (W / s) - 1) := by
  rw [dsJuxtapose]
  simp only [evalAdd_level, evalRotate_level]
  rw [dsLoop, foldLoop_level _ (dsLoopStep_level N (W * W) s c.level) _ _]
  simp only [List.length_range', evalMult_level, cloneCt]
  omega

theorem downsample_level (N W s : ℕ) (c : Ct) (how : 1 ≤ W / s) :
    (downsample N c W s).level = c.level + 1 + (Nat.clog 2 (W / s) - 1) + 1 := by
  rw [downsample,
    foldPair_snd_level _ (dsRowStep_level N W s (W / s) (W * W) c.level) _ how _ _,
    dsJuxtapose_level]
  simp only [evalMult_level]
  omega

theorem downsample_channels_level (N W s nc : ℕ) (c : Ct) (how : 1 ≤ W / s)
    (hnc : 1 ≤ nc) :
    (downsample_with_multiple_channels N c W s nc).level =
      c.level + 1 + (Nat.clog 2 (W / s) - 1) + 1 + 1 := by
  rw [downsample_with_multiple_channels,
    foldPair_snd_level _ (dsChanStep_level N (W / s * (W / s)) (W * W) nc c.level) _ hnc _ _,
    foldPair_snd_level _ (dsRowStepCh_level N W s (W / s) (W * W) nc c.level) _ how _ _,
    evalAdd_level, evalRotate_level,
    foldLoop_level _ (dsLoopStepCh_level N (W * W) s nc c.level)]
  simp only [List.length_range', evalMult_level, cloneCt]
  omega


/-! ## `nextPowerOf2`, the max-abs selector, and truncation
(claims C7 and C9) -/

/-- The bit-smearing cascade of `nextPowerOf2`, named for the proofs. -/
def smear (x : ℕ) : ℕ :=
  let n2 := x ||| (x >>> 1)
  let n3 := n2 ||| (n2 >>> 2)
  let n4 := n3 ||| (n3 >>> 4)
  let n5 := n4 ||| (n4 >>> 8)
  n5 ||| (n5 >>> 16)

theorem nextPowerOf2_eq_smear (n : ℕ) :
    nextPowerOf2 n = if n = 0 then 1 else (smear (n - 1) + 1) % 2 ^ 32 := rfl

theorem testBit_orShift (x a i : ℕ) :
    (x ||| x >>> a).testBit i = (x.testBit i || x.testBit (i + a)) := by
  rw [Nat.testBit_or, Nat.testBit_shiftRight, Nat.add_comm a i]

theorem orShift_stage (y w w2 x : ℕ) (hw : w2 = 2 * w)
    (hy : ∀ i, (y.testBit i = true) ↔ ∃ d, d < w ∧ x.testBit (i + d) = true) :
    ∀ i, ((y ||| y >>> w).testBit i = true) ↔
      ∃ d, d < w2 ∧ x.testBit (i + d) = true := by
  subst hw
  intro i
  rw [testBit_orShift, Bool.or_eq_true, hy i, hy (i + w)]
  constructor
  · rintro (⟨d, hd, hb⟩ | ⟨d, hd, hb⟩)
    · exact ⟨d, by omega, hb⟩
    · exact ⟨w + d, by omega, by rwa [← Nat.add_assoc]⟩
  · rintro ⟨d, hd, hb⟩
    rcases Nat.lt_or_ge d w with h | h
    · exact Or.inl ⟨d, h, hb⟩
    · refine Or.inr ⟨d - w, by omega, ?_⟩
      rwa [show i + w + (d - w) = i + d from by omega]

theorem smear_spec (L x : ℕ) (hL : L ≤ 31) (hx1 : 2 ^ L ≤ x) (hx2 : x < 2 ^ (L + 1)) :
    smear x = 2 ^ (L + 1) - 1 := by
  have base : ∀ i, (x.testBit i = true) ↔ ∃ d, d < 1 ∧ x.testBit (i + d) = true := by
    intro i
    constructor
    · intro h
      exact ⟨0, by omega, by simpa using h⟩
    · rintro ⟨d, hd, hb⟩
      have hd0 : d = 0 := by omega
      subst hd0
      simpa using hb
  have h1 := orShift_stage x 1 2 x (by norm_num) base
  have h2 := orShift_stage _ 2 4 x (by norm_num) h1
  have h3 := orShift_stage _ 4 8 x (by norm_num) h2
  have h4 := orShift_stage _ 8 16 x (by norm_num) h3
  have h5 := orShift_stage _ 16 32 x (by norm_num) h4
  have hmsb : x.testBit L = true := by
    have hdiv : x / 2 ^ L = 1 := by
      have hp : (2 : ℕ) ^ (L + 1) = 2 * 2 ^ L := by
        rw [pow_succ]
        ring
      apply Nat.div_eq_of_lt_le
      · omega
      · omega
    rw [Nat.testBit_to_div_mod, hdiv]
    rfl
  have hhigh : ∀ j, L < j → x.testBit j = false := by
    intro j hj
    apply Nat.testBit_lt_two_pow
    exact lt_of_lt_of_le hx2 (Nat.pow_le_pow_right (by omega) (by omega))
  rw [smear]
  apply Nat.eq_of_testBit_eq
  intro i
  rw [Nat.testBit_two_pow_sub_one]
  rcases Nat.lt_or_ge i (L + 1) with hi | hi
  · rw [decide_eq_true hi]
    refine (h5 i).mpr ⟨L - i, by omega, ?_⟩
    rw [show i + (L - i) = L from by omega]
    exact hmsb
  · rw [decide_eq_false (by omega)]
    refine Bool.eq_false_iff.mpr ?_
    intro hb2
    obtain ⟨d, hd, hbit⟩ := (h5 i).mp hb2
    have hf := hhigh (i + d) (by omega)
    rw [hf] at hbit
    exact Bool.noConfusion hbit

theorem nextPowerOf2_eq_pow (n : ℕ) (h2 : 2 ≤ n) (h31 : n ≤ 2 ^ 31) :
    nextPowerOf2 n = 2 ^ (Nat.log 2 (n - 1) + 1) := by
  have hx1 : 2 ^ Nat.log 2 (n - 1) ≤ n - 1 := Nat.pow_log_le_self 2 (by omega)
  have hx2 : n - 1 < 2 ^ (Nat.log 2 (n - 1) + 1) :=
    Nat.lt_pow_succ_log_self (by omega) _
  have hL : Nat.log 2 (n - 1) ≤ 30 := by
    by_contra h
    have h31' : (2 : ℕ) ^ 31 ≤ 2 ^ Nat.log 2 (n - 1) :=
      Nat.pow_le_pow_right (by omega) (by omega)
    omega
  have hs := smear_spec (Nat.log 2 (n - 1)) (n - 1) (by omega) hx1 hx2
  rw [nextPowerOf2_eq_smear, if_neg (by omega), hs]
  have hpos : 0 < (2 : ℕ) ^ (Nat.log 2 (n - 1) + 1) := by positivity
  rw [Nat.sub_add_cancel hpos]
  apply Nat.mod_eq_of_lt
  have : (2 : ℕ) ^ (Nat.log 2 (n - 1) + 1) ≤ 2 ^ 31 :=
    Nat.pow_le_pow_right (by omega) (by omega)
  omega

theorem nextPowerOf2_one : nextPowerOf2 1 = 1 := by
  rw [nextPowerOf2_eq_smear, if_neg (by omega)]
  rfl

/-- `nextPowerOf2` is the least power of two greater than or equal to its
argument, for arguments in `[1, 2^31]`. -/
theorem nextPowerOf2_least (n : ℕ) (h1 : 1 ≤ n) (h31 : n ≤ 2 ^ 31) :
    (∃ e, nextPowerOf2 n = 2 ^ e) ∧ n ≤ nextPowerOf2 n ∧
      ∀ p : ℕ, (∃ e, p = 2 ^ e) → n ≤ p → nextPowerOf2 n ≤ p := by
  by_cases hn1 : n = 1
  · subst hn1
    rw [nextPowerOf2_one]
    exact ⟨⟨0, rfl⟩, le_refl 1, fun p _ hp => hp⟩
  · have h2 : 2 ≤ n := by omega
    rw [nextPowerOf2_eq_pow n h2 h31]
    have hx1 : 2 ^ Nat.log 2 (n - 1) ≤ n - 1 := Nat.pow_log_le_self 2 (by omega)
    have hx2 : n - 1 < 2 ^ (Nat.log 2 (n - 1) + 1) :=
      Nat.lt_pow_succ_log_self (by omega) _
    refine ⟨⟨Nat.log 2 (n - 1) + 1, rfl⟩, by omega, ?_⟩
    rintro p ⟨e, rfl⟩ hnp
    have hlt : 2 ^ Nat.log 2 (n - 1) < 2 ^ e := by omega
    have hLe : Nat.log 2 (n - 1) < e := (Nat.pow_lt_pow_iff_right (by omega)).mp hlt
    exact Nat.pow_le_pow_right (by omega) (by omega)

theorem le_nextPowerOf2 (n : ℕ) (h1 : 1 ≤ n) (h31 : n ≤ 2 ^ 31) :
    n ≤ nextPowerOf2 n :=
  (nextPowerOf2_least n h1 h31).2.1

/-- The running best of `std::max_element` with the exact `|a| < |b|`
comparator: it is one of the candidates and no candidate beats it. -/
theorem foldMaxAbs_spec (xs : List ℚ) (x : ℚ) :
    ((xs.foldl (fun best v => if decide (|best| < |v|) then v else best) x) = x ∨
      (xs.foldl (fun best v => if decide (|best| < |v|) then v else best) x) ∈ xs) ∧
    |x| ≤ |xs.foldl (fun best v => if decide (|best| < |v|) then v else best) x| ∧
    ∀ y ∈ xs, |y| ≤ |xs.foldl (fun best v => if decide (|best| < |v|) then v else best) x| := by
  induction xs generalizing x with
  | nil => exact ⟨Or.inl rfl, le_refl _, by intro y hy; cases hy⟩
  | cons v xs ih =>
    simp only [List.foldl_cons]
    by_cases hc : |x| < |v|
    · rw [if_pos (by simpa using hc)]
      obtain ⟨hmem, hbest, hall⟩ := ih v
      refine ⟨?_, le_trans (le_of_lt hc) hbest, ?_⟩
      · rcases hmem with h | h
        · refine Or.inr ?_
          rw [h]
          exact List.mem_cons_self v xs
        · exact Or.inr (List.mem_cons_of_mem v h)
      · intro y hy
        rcases List.mem_cons.mp hy with rfl | hy
        · exact hbest
        · exact hall y hy
    · rw [if_neg (by simpa using hc)]
      obtain ⟨hmem, hbest, hall⟩ := ih x
      refine ⟨?_, hbest, ?_⟩
      · rcases hmem with h | h
        · exact Or.inl h
        · exact Or.inr (List.mem_cons_of_mem v h)
      · intro y hy
        rcases List.mem_cons.mp hy with rfl | hy
        · exact le_trans (le_of_not_lt hc) hbest
        · exact hall y hy

/-- The element `read_scaling_value_with_key` selects has exactly the
maximum absolute value of the vector. -/
theorem maxElementBy_abs (l : List ℚ) (m : ℚ) (hne : l ≠ [])
    (hmem : ∃ x ∈ l, |x| = m) (hmax : ∀ x ∈ l, |x| ≤ m) :
    |maxElementBy (fun a b => decide (|a| < |b|)) l| = m := by
  cases l with
  | nil => exact absurd rfl hne
  | cons x xs =>
    show |xs.foldl (fun best v => if decide (|best| < |v|) then v else best) x| = m
    obtain ⟨hmem2, hbest, hall⟩ := foldMaxAbs_spec xs x
    apply le_antisymm
    · rcases hmem2 with h | h
      · rw [h]
        exact hmax x (List.mem_cons_self x xs)
      · exact hmax _ (List.mem_cons_of_mem x h)
    · obtain ⟨y, hy, rfl⟩ := hmem
      rcases List.mem_cons.mp hy with rfl | hy
      · exact hbest
      · exact hall y hy

theorem cppToInt_intCast (t : ℤ) : cppToInt ((t : ℚ)) = t := by
  rw [cppToInt, Rat.num_intCast, Rat.den_intCast]
  simp [Int.tdiv_one]

/-- For a nonnegative rational, the C++ `double → int` truncation is the
floor. -/
theorem cppToInt_eq_floor (q : ℚ) (hq : 0 ≤ q) : cppToInt q = ⌊q⌋ := by
  rw [cppToInt, Int.tdiv_eq_ediv (by exact_mod_cast Rat.num_nonneg.mpr hq)
    (by positivity), Rat.floor_def]

/-- What the client actually encrypts for one MNIST line: 784 normalised
pixels followed by 3312 copies of the normalised zero. -/
theorem client_input_vector_spec (line : List ℚ) :
    (client_input_vector line).length = NORMALIZED_DIM ∧
    (∀ i : ℕ, i < MNIST_DIM →
      (client_input_vector line).getD i 0 = normalize_pixel (line.getD i 0)) ∧
    (∀ i : ℕ, MNIST_DIM ≤ i → i < NORMALIZED_DIM →
      (client_input_vector line).getD i 0 = normalize_pixel 0) ∧
    normalize_pixel 0 = -(1307 / 3081) := by
  have hrw : client_input_vector line =
      (List.range MNIST_DIM).map (fun i => normalize_pixel (line.getD i 0)) ++
        List.replicate (NORMALIZED_DIM - MNIST_DIM) (normalize_pixel 0) := by
    rw [client_input_vector, load_sample, List.map_append, List.map_map,
      List.map_replicate]
    rfl
  rw [hrw]
  refine ⟨?_, ?_, ?_, ?_⟩
  · rw [List.length_append, List.length_map, List.length_range,
      List.length_replicate]
    norm_num [MNIST_DIM, NORMALIZED_DIM]
  · intro i hi
    rw [getD_append_ite]
    rw [if_pos (by simpa using hi)]
    rw [getD_map_range, if_pos hi]
  · intro i hi1 hi2
    rw [getD_append_ite]
    rw [if_neg (by simpa using hi1)]
    rw [List.length_map, List.length_range, getD_replicate_ite,
      if_pos (by simp only [MNIST_DIM, NORMALIZED_DIM] at hi1 hi2 ⊢; omega)]
  · rw [normalize_pixel]
    norm_num

/-! ## The grouped fold of `he_linear` (claim C5) -/

/-- The grouped-accumulation step of `he_linear`, with the inner ciphertext
construction abstracted as `C`. -/
def linStep (C : ℕ → Ct) (N r Co : ℕ) (st : ℕ × ℕ × List Ct × List Ct) (i : ℕ) :
    ℕ × ℕ × List Ct × List Ct :=
  match st with
  | (j, rotation_index, inner_matrix, result_matrix) =>
    let inner := inner_matrix ++ [C i]
    let j' := j + 1
    if j' = r ∨ i = Co - 1 then
      let merged := evalMerge N inner
      (0, rotation_index + r, [],
        result_matrix ++ [if rotation_index > 0
          then evalRotate merged (-(rotation_index : ℤ)) else merged])
    else (j', rotation_index, inner, result_matrix)

/-- Ciphertext `he_linear` appends to `result_matrix` for group `g` of
size `size`: the merge of the group's scalars, rotated right by the
group's base index. -/
def linGroup (N r : ℕ) (C : ℕ → Ct) (g size : ℕ) : Ct :=
  if r * g > 0
  then evalRotate (evalMerge N ((List.range' (r * g) size).map C)) (-((r * g : ℕ) : ℤ))
  else evalMerge N ((List.range' (r * g) size).map C)

theorem linFold_inv (N r Co : ℕ) (C : ℕ → Ct) (hr : 1 ≤ r) :
    ∀ m, m + 1 ≤ Co →
      (List.range m).foldl (linStep C N r Co) (0, 0, [], []) =
        (m % r, r * (m / r), (List.range' (r * (m / r)) (m % r)).map C,
          (List.range (m / r)).map fun g => linGroup N r C g r) := by
  intro m
  induction m with
  | zero =>
    intro h
    simp [List.range']
  | succ m ih =>
    intro hm
    rw [List.range_succ, List.foldl_append, List.foldl_cons, List.foldl_nil,
      ih (by omega), linStep]
    simp only
    have hsplit : m = r * (m / r) + m % r := (Nat.div_add_mod m r).symm
    have hplt : m % r < r := Nat.mod_lt m (by omega)
    have hinner : ((List.range' (r * (m / r)) (m % r)).map C) ++ [C m] =
        (List.range' (r * (m / r)) (m % r + 1)).map C := by
      rw [List.range'_concat, List.map_append]
      simp only [List.map_cons, List.map_nil, one_mul]
      rw [← hsplit]
    have hne : ¬ (m = Co - 1) := by omega
    have hmul : r * (m / r + 1) = r * (m / r) + r := Nat.mul_succ r (m / r)
    by_cases hj : m % r + 1 = r
    · rw [if_pos (Or.inl hj)]
      have h1 : (m + 1) % r = 0 := by
        rw [show m + 1 = r * (m / r + 1) from by omega]
        exact Nat.mul_mod_right r (m / r + 1)
      have h2 : (m + 1) / r = m / r + 1 := by
        rw [show m + 1 = r * (m / r + 1) from by omega]
        exact Nat.mul_div_cancel_left (m / r + 1) (by omega)
      rw [h1, h2, hinner, hj, List.range_succ, List.map_append, hmul]
      simp only [linGroup]
      rfl
    · rw [if_neg (by
        push_neg
        exact ⟨hj, hne⟩)]
      have h1 : (m + 1) % r = m % r + 1 := by
        conv_lhs => rw [show m + 1 = r * (m / r) + (m % r + 1) from by omega]
        rw [Nat.mul_add_mod]
        exact Nat.mod_eq_of_lt (by omega)
      have h0 : (m % r + 1) / r = 0 := Nat.div_eq_of_lt (by omega)
      have h2 : (m + 1) / r = m / r := by
        conv_lhs => rw [show m + 1 = r * (m / r) + (m % r + 1) from by omega]
        rw [Nat.mul_add_div (show 0 < r by omega), h0]
        omega
      rw [h1, h2, hinner]

theorem linFold_final (N r Co : ℕ) (C : ℕ → Ct) (hr : 1 ≤ r) (hCo : 1 ≤ Co) :
    ((List.range Co).foldl (linStep C N r Co) (0, 0, [], [])).2.2.2 =
      ((List.range ((Co - 1) / r)).map fun g => linGroup N r C g r)
        ++ [linGroup N r C ((Co - 1) / r) ((Co - 1) % r + 1)] := by
  obtain ⟨m, rfl⟩ : ∃ m, Co = m + 1 := ⟨Co - 1, by omega⟩
  rw [List.range_succ, List.foldl_append, List.foldl_cons, List.foldl_nil,
    linFold_inv N r (m + 1) C hr m (le_refl _), linStep]
  simp only
  rw [if_pos (Or.inr (by omega))]
  simp only [Nat.add_sub_cancel]
  have hinner : ((List.range' (r * (m / r)) (m % r)).map C) ++ [C m] =
      (List.range' (r * (m / r)) (m % r + 1)).map C := by
    rw [List.range'_concat, List.map_append]
    simp only [List.map_cons, List.map_nil, one_mul]
    rw [show r * (m / r) + m % r = m from Nat.div_add_mod m r]
  rw [hinner]
  simp only [linGroup]

theorem foldAdd_slots (cs : List Ct) :
    ∀ (c : Ct) (i : ℤ), (cs.foldl evalAdd c).slots i =
      c.slots i + (cs.map fun x => x.slots i).sum := by
  induction cs with
  | nil => intro c i; simp
  | cons d cs ih =>
    intro c i
    rw [List.foldl_cons, ih (evalAdd c d)]
    simp only [List.map_cons, List.sum_cons, evalAdd]
    ring

theorem evalAddMany_slots (l : List Ct) (i : ℤ) :
    (evalAddMany l).slots i = (l.map fun c => c.slots i).sum := by
  cases l with
  | nil => simp [evalAddMany]
  | cons c cs =>
    rw [evalAddMany, foldAdd_slots]
    simp only [List.map_cons, List.sum_cons]

theorem getD_map_range' (f : ℕ → ℚ) (s n p : ℕ) (d : ℚ) :
    ((List.range' s n).map f).getD p d = if p < n then f (s + p) else d := by
  by_cases h : p < n
  · rw [List.getD_eq_getElem?_getD, List.getElem?_map, List.getElem?_range' s 1 h]
    simp [h]
  · rw [List.getD_eq_getElem?_getD, List.getElem?_map,
      List.getElem?_eq_none (by simpa using h)]
    simp [h]

/-- Slot `i` of the merged-and-rotated group ciphertext: the group scalar
when `i` lies in the group's output range, zero otherwise. -/
theorem linGroup_slots (N r : ℕ) (C : ℕ → Ct) (g size i : ℕ)
    (hiN : i < N) (hbound : r * g + size ≤ N) :
    (linGroup N r C g size).slots i =
      if r * g ≤ i ∧ i < r * g + size then (C i).slots 0 else 0 := by
  have hmerge : ∀ z : ℤ, (evalMerge N ((List.range' (r * g) size).map C)).slots z =
      ((List.range' (r * g) size).map (fun idx => (C idx).slots 0)).getD
        ((z % (N : ℤ)).toNat) 0 := by
    intro z
    rw [evalMerge]
    simp only
    rw [List.map_map]
    rfl
  rw [linGroup]
  by_cases hg : r * g > 0
  · rw [if_pos hg, evalRotate]
    simp only
    by_cases hle : r * g ≤ i
    · have hz : (i : ℤ) + -((r * g : ℕ) : ℤ) = ((i - r * g : ℕ) : ℤ) := by omega
      rw [hz, hmerge, emod_toNat_self _ (by omega), getD_map_range']
      by_cases hlt : i < r * g + size
      · rw [if_pos (by omega), if_pos ⟨hle, hlt⟩,
          show r * g + (i - r * g) = i from by omega]
      · rw [if_neg (by omega), if_neg (by omega)]
    · have h1 : (i : ℤ) + -((r * g : ℕ) : ℤ) = ((N + i - r * g : ℕ) : ℤ) - N := by
        omega
      have h2 : (((N + i - r * g : ℕ) : ℤ) - N) % (N : ℤ) =
          ((N + i - r * g : ℕ) : ℤ) := by
        rw [show ((N + i - r * g : ℕ) : ℤ) - N =
            ((N + i - r * g : ℕ) : ℤ) + (N : ℤ) * (-1) from by ring,
          Int.add_mul_emod_self_left]
        exact Int.emod_eq_of_lt (by omega) (by omega)
      rw [hmerge] at *
      rw [h1]
      rw [show ((((N + i - r * g : ℕ) : ℤ) - N) % (N : ℤ)).toNat =
          N + i - r * g from by rw [h2]; exact Int.toNat_natCast _]
      rw [getD_map_range', if_neg (by omega), if_neg (by omega)]
  · rw [if_neg hg, hmerge, emod_toNat_self i hiN, getD_map_range']
    have hg0 : r * g = 0 := by omega
    by_cases hlt : i < r * g + size
    · rw [if_pos (by omega), if_pos (by omega),
        show r * g + i = i from by omega]
    · rw [if_neg (by omega), if_neg (by omega)]

theorem sum_map_zero (G : ℕ) (h : ℕ → ℚ) (hzero : ∀ g, g < G → h g = 0) :
    ((List.range G).map h).sum = 0 := by
  apply List.sum_eq_zero
  intro x hx
  obtain ⟨g, hg, rfl⟩ := List.mem_map.mp hx
  exact hzero g (List.mem_range.mp hg)

theorem sum_map_single (G : ℕ) : ∀ (g0 : ℕ) (h : ℕ → ℚ), g0 < G →
    (∀ g, g < G → g ≠ g0 → h g = 0) →
    ((List.range G).map h).sum = h g0 := by
  induction G with
  | zero =>
    intro g0 h hg0 hzero
    omega
  | succ G ih =>
    intro g0 h hg0 hzero
    rw [List.range_succ, List.map_append, List.sum_append]
    simp only [List.map_cons, List.map_nil, List.sum_cons, List.sum_nil]
    by_cases hG : g0 = G
    · rw [sum_map_zero G h (fun g hg => hzero g (by omega) (by omega)), hG]
      ring
    · rw [ih g0 h (by omega) (fun g hg hne => hzero g (by omega) hne),
        hzero G (by omega) (by omega)]
      ring

theorem ctOfVec_slots (N : ℕ) (v : List ℚ) (lvl : ℕ) (z : ℤ) :
    (ctOfVec N v lvl).slots z = v.getD ((z % ((N : ℕ) : ℤ)).toNat) 0 := rfl

theorem evalAddPt_slots (c : Ct) (p : Pt) (i : ℤ) :
    (evalAddPt c p).slots i = c.slots i + ptAt p i := rfl

/-- Slot 0 of the per-output scalar ciphertext of `he_linear`: the inner
product of the input window with weight row `i`. -/
theorem linScalar (N Ci lvl lw : ℕ) (x : List ℚ) (w : List (List ℚ)) (i : ℕ)
    (hi : i < w.length) (hCiN : Ci ≤ N) :
    (evalSum (evalMult (ctOfVec N x lvl)
        ((w.map fun row => makePt N row lw).getD i defaultPt)) Ci).slots 0 =
      ((List.range Ci).map fun j => (w.getD i []).getD j 0 * x.getD j 0).sum := by
  have hwm : (w.map fun row => makePt N row lw).getD i defaultPt =
      makePt N (w.getD i []) lw := by
    rw [List.getD_eq_getElem?_getD, List.getElem?_map, List.getElem?_eq_getElem hi]
    rw [List.getD_eq_getElem _ _ hi]
    rfl
  rw [hwm, evalSum]
  simp only
  refine congrArg List.sum (List.map_congr_left ?_)
  intro t ht
  have htCi := List.mem_range.mp ht
  rw [evalMult_slots, zero_add, ctOfVec_slots]
  show x.getD (((t : ℤ) % ((N : ℕ) : ℤ)).toNat) 0 *
      (w.getD i []).getD ((((t : ℤ)) % ((N : ℕ) : ℤ)).toNat) 0 = _
  rw [emod_toNat_self t (by omega)]
  ring

/-! ## The planner post-processing pipeline (claims C2 and C4) -/

theorem adjDedup_cons_head : ∀ (b : ℤ) (rest : List ℤ),
    ∃ t, adjDedup (b :: rest) = b :: t := by
  intro b rest
  induction rest generalizing b with
  | nil => exact ⟨[], rfl⟩
  | cons c r ih =>
    rw [adjDedup]
    by_cases hbc : b = c
    · rw [if_pos hbc]
      obtain ⟨t, ht⟩ := ih c
      exact ⟨t, by rw [ht, hbc]⟩
    · rw [if_neg hbc]
      exact ⟨adjDedup (c :: r), rfl⟩

theorem adjDedup_mem (x : ℤ) : ∀ l : List ℤ, x ∈ adjDedup l ↔ x ∈ l := by
  intro l
  match l with
  | [] => rfl
  | [a] => rfl
  | a :: b :: rest =>
    rw [adjDedup]
    by_cases hab : a = b
    · rw [if_pos hab, adjDedup_mem x (b :: rest), hab]
      simp [List.mem_cons]
    · rw [if_neg hab, List.mem_cons, adjDedup_mem x (b :: rest)]
      simp [List.mem_cons]

theorem adjDedup_chain : ∀ l : List ℤ, List.Chain' (· ≤ ·) l →
    List.Chain' (· < ·) (adjDedup l) := by
  intro l
  match l with
  | [] => intro _; exact List.chain'_nil
  | [a] => intro _; simp [adjDedup]
  | a :: b :: rest =>
    intro hc
    rw [List.chain'_cons] at hc
    rw [adjDedup]
    by_cases hab : a = b
    · rw [if_pos hab]
      exact adjDedup_chain (b :: rest) hc.2
    · rw [if_neg hab]
      obtain ⟨t, ht⟩ := adjDedup_cons_head b rest
      rw [ht]
      rw [List.chain'_cons]
      refine ⟨lt_of_le_of_ne hc.1 hab, ?_⟩
      rw [← ht]
      exact adjDedup_chain (b :: rest) hc.2

/-- A nonzero member of a planner's raw offset list survives the
sort / remove(0) / unique / erase / sort pipeline. -/
theorem mem_sortRemoveUniqueErase (l : List ℤ) (z : ℤ) (hz : z ≠ 0) (h : z ∈ l) :
    z ∈ sortRemoveUniqueErase l := by
  rw [sortRemoveUniqueErase]
  rw [List.Perm.mem_iff (List.perm_insertionSort _ _), adjDedup_mem,
    List.mem_append]
  left
  rw [List.mem_filter]
  refine ⟨(List.Perm.mem_iff (List.perm_insertionSort _ _)).mpr h, by simpa using hz⟩

theorem mem_ite_nil_int (p : Prop) [Decidable p] (l : List ℤ) (z : ℤ) :
    (z ∈ (if p then l else [])) ↔ p ∧ z ∈ l := by
  split
  · next h => simp [h]
  · next h => simp [h]

theorem chain_le_getLast : ∀ (l : List ℤ) (h : l ≠ []),
    List.Chain' (· ≤ ·) l → ∀ x ∈ l, x ≤ l.getLast h := by
  intro l
  match l with
  | [] => intro h; exact absurd rfl h
  | [a] =>
    intro h _ x hx
    rw [List.mem_singleton] at hx
    subst hx
    rfl
  | a :: b :: rest =>
    intro h hc x hx
    rw [List.chain'_cons] at hc
    rw [List.getLast_cons (by simp)]
    rcases List.mem_cons.mp hx with rfl | hx2
    · calc x ≤ b := hc.1
        _ ≤ (b :: rest).getLast (by simp) :=
          chain_le_getLast (b :: rest) (by simp) hc.2 b (List.mem_cons_self b rest)
    · exact chain_le_getLast (b :: rest) (by simp) hc.2 x hx2

theorem drop_length_sub_one : ∀ (l : List ℤ) (h : l ≠ []),
    l.drop (l.length - 1) = [l.getLast h] := by
  intro l
  match l with
  | [] => intro h; exact absurd rfl h
  | [a] => intro h; rfl
  | a :: b :: rest =>
    intro h
    rw [List.getLast_cons (by simp)]
    have ih := drop_length_sub_one (b :: rest) (by simp)
    rw [show (a :: b :: rest).length - 1 = (b :: rest).length - 1 + 1 from by
      simp [List.length_cons]]
    rw [List.drop_succ_cons]
    exact ih

theorem pipeline_clean_aux (s : List ℤ) (hsort : List.Sorted (· ≤ ·) s)
    (hcnt : s.count 0 ≤ 1) (hpos : (0 : ℤ) ∈ s → ∃ x ∈ s, 0 < x) :
    List.Chain' (· < ·) (List.insertionSort (· ≤ ·)
      (adjDedup (s.filter (· ≠ 0) ++ s.drop (s.length - s.count 0)))) ∧
    (List.insertionSort (· ≤ ·)
      (adjDedup (s.filter (· ≠ 0) ++ s.drop (s.length - s.count 0)))).Nodup ∧
    (0 : ℤ) ∉ List.insertionSort (· ≤ ·)
      (adjDedup (s.filter (· ≠ 0) ++ s.drop (s.length - s.count 0))) := by
  have key : List.Chain' (· ≤ ·) (s.filter (· ≠ 0) ++ s.drop (s.length - s.count 0)) ∧
      (0 : ℤ) ∉ (s.filter (· ≠ 0) ++ s.drop (s.length - s.count 0)) := by
    rcases Nat.lt_or_ge (s.count 0) 1 with h0 | h1
    · have hc0 : s.count 0 = 0 := by omega
      have hnz : (0 : ℤ) ∉ s := List.count_eq_zero.mp hc0
      have hfe : s.filter (· ≠ 0) = s := by
        rw [List.filter_eq_self]
        intro a ha
        simp only [ne_eq, decide_eq_true_eq]
        intro h
        rw [h] at ha
        exact hnz ha
      rw [hc0, Nat.sub_zero, List.drop_length, hfe, List.append_nil]
      exact ⟨List.chain'_iff_pairwise.mpr hsort, hnz⟩
    · have hc1 : s.count 0 = 1 := by omega
      have h0mem : (0 : ℤ) ∈ s := List.count_pos_iff.mp (by omega)
      have hneS : s ≠ [] := List.ne_nil_of_mem h0mem
      obtain ⟨x, hxs, hx⟩ := hpos h0mem
      have hchain : List.Chain' (· ≤ ·) s := List.chain'_iff_pairwise.mpr hsort
      have hlastpos : 0 < s.getLast hneS :=
        lt_of_lt_of_le hx (chain_le_getLast s hneS hchain x hxs)
      have hdrop : s.drop (s.length - 1) = [s.getLast hneS] :=
        drop_length_sub_one s hneS
      rw [hc1, hdrop]
      constructor
      · rw [List.chain'_append]
        refine ⟨List.chain'_iff_pairwise.mpr (hsort.sublist (List.filter_sublist s)),
          List.chain'_singleton _, ?_⟩
        intro y hy w hw
        obtain ⟨hne2, hyeq⟩ := List.mem_getLast?_eq_getLast hy
        have hyf : y ∈ s.filter (· ≠ 0) := by
          rw [hyeq]
          exact List.getLast_mem hne2
        have hys : y ∈ s := List.mem_of_mem_filter hyf
        have hwl : w = s.getLast hneS := by
          have := hw
          simp at this
          omega
        rw [hwl]
        exact chain_le_getLast s hneS hchain y hys
      · rw [List.mem_append]
        rintro (h | h)
        · rw [List.mem_filter] at h
          simp at h
        · rw [List.mem_singleton] at h
          omega
  obtain ⟨hchainA, h0A⟩ := key
  have hchainD := adjDedup_chain _ hchainA
  have h0D : (0 : ℤ) ∉ adjDedup (s.filter (· ≠ 0) ++ s.drop (s.length - s.count 0)) :=
    fun h => h0A ((adjDedup_mem 0 _).mp h)
  have hndD : (adjDedup (s.filter (· ≠ 0) ++ s.drop (s.length - s.count 0))).Nodup :=
    (List.chain'_iff_pairwise.mp hchainD).imp (fun h => LT.lt.ne h)
  have hpermF := List.perm_insertionSort (· ≤ ·)
    (adjDedup (s.filter (· ≠ 0) ++ s.drop (s.length - s.count 0)))
  have hsortF := List.sorted_insertionSort (· ≤ ·)
    (adjDedup (s.filter (· ≠ 0) ++ s.drop (s.length - s.count 0)))
  have hndF := hpermF.nodup_iff.mpr hndD
  refine ⟨?_, hndF, fun h => h0D (hpermF.subset h)⟩
  rw [List.chain'_iff_pairwise]
  exact (hsortF.and hndF).imp (fun h => lt_of_le_of_ne h.1 h.2)

/-- The planner post-processing pipeline returns a strictly increasing,
duplicate-free list avoiding 0 whenever its input holds at most one 0 and,
if it holds one, also a positive entry. -/
theorem sortRemoveUniqueErase_clean (l : List ℤ)
    (hcount : l.count 0 ≤ 1) (hpos : (0 : ℤ) ∈ l → ∃ x ∈ l, 0 < x) :
    List.Chain' (· < ·) (sortRemoveUniqueErase l) ∧
    (sortRemoveUniqueErase l).Nodup ∧ (0 : ℤ) ∉ sortRemoveUniqueErase l := by
  have hperm := List.perm_insertionSort (· ≤ ·) l
  have happ := pipeline_clean_aux (List.insertionSort (· ≤ ·) l)
    (List.sorted_insertionSort (· ≤ ·) l)
    (by rw [hperm.count_eq]; exact hcount)
    (fun h => by
      obtain ⟨x, hxl, hx⟩ := hpos (hperm.mem_iff.mp h)
      exact ⟨x, hperm.mem_iff.mpr hxl, hx⟩)
  exact happ

/-- Sorted strictly increasing, duplicate-free, and free of the offset 0. -/
def cleanOffsets (L : List ℤ) : Prop :=
  List.Chain' (· < ·) L ∧ L.Nodup ∧ (0 : ℤ) ∉ L

theorem conv_planner_clean (inputWidth inputChannels outputChannels kernelWidth
    padding stride : ℕ) (hW : 1 ≤ inputWidth)
    (hkp : kernelWidth ≤ inputWidth + 2 * padding) :
    cleanOffsets (generate_convolution_rotation_positions inputWidth inputChannels
      outputChannels kernelWidth padding stride) := by
  rw [generate_convolution_rotation_positions, cleanOffsets]
  have hnum : (0 : ℤ) ≤ ((inputWidth + 2 * padding : ℕ) : ℤ) -
      ((kernelWidth : ℤ) - 1) - 1 := by omega
  have htd : (0 : ℤ) ≤ (((inputWidth + 2 * padding : ℕ) : ℤ) -
      ((kernelWidth : ℤ) - 1) - 1).tdiv ((stride : ℕ) : ℤ) := by
    rw [Int.tdiv_eq_ediv hnum (by positivity)]
    exact Int.ediv_nonneg hnum (by positivity)
  set wo : ℤ := (((inputWidth + 2 * padding : ℕ) : ℤ) -
      ((kernelWidth : ℤ) - 1) - 1).tdiv ((stride : ℕ) : ℤ) + 1 with hwo_def
  have hwo : 1 ≤ wo := by omega
  clear_value wo
  refine sortRemoveUniqueErase_clean _ ?hc ?hp
  case hc =>
    rw [List.count_eq_zero.mpr ?h0]
    · omega
    case h0 =>
      intro h
      simp only [List.mem_append, List.mem_cons, List.mem_map, List.not_mem_nil,
        or_false] at h
      have e1 := Nat.mul_le_mul (show 1 ≤ inputWidth + 2 * padding by omega)
        (show 1 ≤ inputWidth + 2 * padding by omega)
      have e2 := Nat.mul_le_mul hW hW
      have e3 : (0 : ℤ) < wo * wo := mul_pos (by omega) (by omega)
      rcases h with (((h | h | h | h | h | h | h | h) | ⟨i, hi, h⟩) | ⟨i, hi, h⟩) | ⟨i, hi, h⟩
      · omega
      · omega
      · omega
      · omega
      · omega
      · omega
      · omega
      · omega
      · obtain ⟨h1, h2⟩ := List.mem_range'_1.mp hi
        omega
      · obtain ⟨h1, h2⟩ := List.mem_range'_1.mp hi
        have f1 : (0 : ℤ) < (i : ℤ) * wo :=
          mul_pos (by exact_mod_cast h1) (by omega)
        omega
      · obtain ⟨h1, h2⟩ := List.mem_range'_1.mp hi
        have f2 : (0 : ℤ) < (i : ℤ) * (wo * wo) :=
          mul_pos (by exact_mod_cast h1) e3
        omega
  case hp =>
    intro h
    exact ⟨1, by
      simp only [List.mem_append, List.mem_cons]
      tauto, by omega⟩

theorem linear_planner_clean (maxFCLayeroutputs rotationPositions : ℕ)
    (hr : 1 ≤ rotationPositions) :
    cleanOffsets (generate_linear_rotation_positions maxFCLayeroutputs
      rotationPositions) := by
  rw [generate_linear_rotation_positions, cleanOffsets]
  refine sortRemoveUniqueErase_clean _ ?hc ?hp
  case hc =>
    rw [List.count_append]
    have hB : (((List.range' 1 rotationPositions).map
        fun i : ℕ => ((i : ℕ) : ℤ)).count 0) = 0 := by
      rw [List.count_eq_zero]
      intro h
      simp only [List.mem_map] at h
      obtain ⟨i, hi, h⟩ := h
      obtain ⟨h1, h2⟩ := List.mem_range'_1.mp hi
      omega
    have hA : (((List.range ((maxFCLayeroutputs + rotationPositions - 1) /
        rotationPositions)).map
          fun g : ℕ => -((g * rotationPositions : ℕ) : ℤ)).count 0) ≤ 1 := by
      apply List.nodup_iff_count_le_one.mp
      apply List.Nodup.map
      · intro a b hab
        simp only [neg_inj, Nat.cast_inj] at hab
        exact Nat.eq_of_mul_eq_mul_right (by omega) hab
      · exact List.nodup_range _
    omega
  case hp =>
    intro h
    refine ⟨1, ?_, by omega⟩
    simp only [List.mem_append, List.mem_map]
    right
    exact ⟨1, List.mem_range'_1.mpr ⟨le_refl 1, by omega⟩, rfl⟩

theorem avgpool_planner_clean (inputWidth kernelWidth stride inputChannels : ℕ)
    (hkW : 1 ≤ kernelWidth) (hst : 1 ≤ stride) (hsW : stride ≤ inputWidth) :
    cleanOffsets (generate_avgpool_rotation_positions inputWidth kernelWidth
      stride inputChannels) := by
  rw [generate_avgpool_rotation_positions, cleanOffsets]
  have hW : 1 ≤ inputWidth := by omega
  set wao := inputWidth / stride with hwao_def
  have hwao : 1 ≤ wao := by
    rw [hwao_def]
    exact (Nat.one_le_div_iff (by omega)).mpr hsW
  clear_value wao
  refine sortRemoveUniqueErase_clean _ ?hc ?hp
  case hc =>
    rw [List.count_eq_zero.mpr ?h0]
    · omega
    case h0 =>
      intro h
      simp only [List.mem_append, List.mem_cons, List.mem_map, List.mem_flatten,
        List.not_mem_nil, or_false, exists_exists_and_eq_and] at h
      have e1 := Nat.mul_le_mul hW hW
      have e2 := Nat.mul_le_mul hst hW
      have e3 := Nat.mul_le_mul hwao hwao
      have e3' : 1 ≤ wao * wao := by omega
      rcases h with ((h | h | h | h | h | h) | ⟨i, hi, h | h⟩) | ⟨i, hi, h | h⟩
      · omega
      · omega
      · omega
      · omega
      · omega
      · omega
      · obtain ⟨h1, h2⟩ := List.mem_range'_1.mp hi
        have f1 := Nat.mul_le_mul h1 hwao
        omega
      · obtain ⟨h1, h2⟩ := List.mem_range'_1.mp hi
        have f2 := Nat.mul_le_mul h1 e3'
        omega
      · obtain ⟨h1, h2⟩ := List.mem_range'_1.mp hi
        omega
      · obtain ⟨h1, h2⟩ := List.mem_range'_1.mp hi
        have f1 := Nat.mul_le_mul h1 hwao
        omega
  case hp =>
    intro h
    refine ⟨(inputWidth : ℤ), ?_, by omega⟩
    simp only [List.mem_append, List.mem_cons]
    tauto

theorem optconv_planner_clean (inputWidth inputChannels outputChannels stride : ℕ)
    (hst : 2 ≤ stride) (hsW : stride ≤ inputWidth) :
    cleanOffsets (generate_optimized_convolution_rotation_positions inputWidth
      inputChannels outputChannels stride "basic") := by
  rw [generate_optimized_convolution_rotation_positions]
  rw [if_pos (show stride > 1 by omega), if_pos (rfl : ("basic" : String) = "basic")]
  rw [cleanOffsets]
  have hW : 1 ≤ inputWidth := by omega
  set wo := inputWidth / stride with hwo_def
  have hwo : 1 ≤ wo := by
    rw [hwo_def]
    exact (Nat.one_le_div_iff (by omega)).mpr hsW
  clear_value wo
  refine sortRemoveUniqueErase_clean _ ?hc ?hp
  case hc =>
    rw [List.count_eq_zero.mpr ?h0]
    · omega
    case h0 =>
      intro h
      simp only [List.mem_append, List.mem_cons, List.mem_map, List.mem_flatten,
        List.not_mem_nil, or_false, exists_exists_and_eq_and] at h
      have e1 := Nat.mul_le_mul hW hW
      have e3 := Nat.mul_le_mul hwo hwo
      have e3' : 1 ≤ wo * wo := by omega
      rcases h with (h | h | h | h | h) | ⟨i, hi, h | h⟩ | ⟨i, hi, h | h⟩
      · omega
      · omega
      · omega
      · omega
      · omega
      · obtain ⟨h1, h2⟩ := List.mem_range'_1.mp hi
        have f1 := Nat.mul_le_mul h1 hwo
        omega
      · obtain ⟨h1, h2⟩ := List.mem_range'_1.mp hi
        have f2 := Nat.mul_le_mul h1 e3'
        omega
      · obtain ⟨h1, h2⟩ := List.mem_range'_1.mp hi
        omega
      · obtain ⟨h1, h2⟩ := List.mem_range'_1.mp hi
        have f1 := Nat.mul_le_mul h1 hwo
        omega
  case hp =>
    intro h
    refine ⟨1, ?_, by omega⟩
    simp only [List.mem_append, List.mem_cons]
    tauto

theorem avgpoolopt_planner_clean (inputWidth inputChannels kernelWidth stride
    rotationIndex : ℕ) (hW3 : 3 ≤ inputWidth) (hst : 2 ≤ stride)
    (hsW : stride ≤ inputWidth) :
    cleanOffsets (generate_avgpool_optimized_rotation_positions inputWidth
      inputChannels kernelWidth stride false "basic" rotationIndex) := by
  rw [generate_avgpool_optimized_rotation_positions]
  rw [if_neg (show ¬ (false = true) by simp), if_neg (show ¬ (inputWidth ≤ 2) by omega),
    if_pos (show stride > 1 by omega), if_pos (rfl : ("basic" : String) = "basic")]
  rw [cleanOffsets]
  have hW : 1 ≤ inputWidth := by omega
  set wao := inputWidth / stride with hwao_def
  have hwao : 1 ≤ wao := by
    rw [hwao_def]
    exact (Nat.one_le_div_iff (by omega)).mpr hsW
  clear_value wao
  refine sortRemoveUniqueErase_clean _ ?hc ?hp
  case hc =>
    rw [List.count_eq_zero.mpr ?h0]
    · omega
    case h0 =>
      intro h
      simp only [List.mem_append, List.mem_cons, List.mem_map, List.mem_flatten,
        List.not_mem_nil, or_false, exists_exists_and_eq_and] at h
      have e1 := Nat.mul_le_mul hW hW
      have e2 := Nat.mul_le_mul (show 1 ≤ stride by omega) hW
      have e3 := Nat.mul_le_mul hwao hwao
      have e3' : 1 ≤ wao * wao := by omega
      rcases h with (h | h | h | h | h | h) | ⟨i, hi, h | h⟩ | ⟨i, hi, h | h⟩
      · omega
      · omega
      · omega
      · omega
      · omega
      · omega
      · obtain ⟨h1, h2⟩ := List.mem_range'_1.mp hi
        have f1 := Nat.mul_le_mul h1 hwao
        omega
      · obtain ⟨h1, h2⟩ := List.mem_range'_1.mp hi
        have f2 := Nat.mul_le_mul h1 e3'
        omega
      · obtain ⟨h1, h2⟩ := List.mem_range'_1.mp hi
        omega
      · obtain ⟨h1, h2⟩ := List.mem_range'_1.mp hi
        have f1 := Nat.mul_le_mul h1 hwao
        omega
  case hp =>
    intro h
    refine ⟨(inputWidth : ℤ), ?_, by omega⟩
    simp only [List.mem_append, List.mem_cons]
    tauto

/-! ## Claim theorems -/

/-- C10: each channel-tiled mask builder encodes exactly the
`numChannels`-fold concatenation of its single-channel counterpart's
vector, at the same level and packing period. -/
theorem claim_C10 (N inputWidth inputSize stride numChannels row width level : ℕ)
    (pattern : ℤ) :
    first_mask_with_channels N inputWidth inputSize stride numChannels level =
      makePt N ((List.replicate numChannels
        (first_mask N inputWidth inputSize stride level).vec).flatten) level ∧
    generate_binary_mask_with_channels N pattern inputSize stride numChannels level =
      makePt N ((List.replicate numChannels
        (generate_binary_mask N pattern inputSize stride level).vec).flatten) level ∧
    generate_row_mask_with_channels N row width inputSize stride numChannels level =
      makePt N ((List.replicate numChannels
        (generate_row_mask N row width inputSize stride level).vec).flatten) level :=
  ⟨rfl, rfl, rfl⟩

/-- C6: when the requested output size exceeds the number of weight-matrix
rows, both fully connected kernels return the input ciphertext unchanged
instead of aborting: the caller continues with a value as if the call had
succeeded. -/
theorem claim_C6 :
    he_linear 8 (ctOfVec 8 [1, 2, 3] 0) [makePt 8 [1, 0, 0] 0] (makePt 8 [0] 0) 3 2 1 =
      ctOfVec 8 [1, 2, 3] 0 ∧
    he_linear_optimized 8 (ctOfVec 8 [1, 2, 3] 0) [makePt 8 [1, 0, 0] 0] (makePt 8 [0] 0) 3 2 =
      ctOfVec 8 [1, 2, 3] 0 := by
  constructor
  · rw [he_linear, if_pos (by decide)]
  · rw [he_linear_optimized, if_pos (by decide)]

/-- C3 (amended): for an output width `W/s ≥ 2`, the single-channel
downsampler raises the level by `⌈log₂(W/s)⌉ + 1` (one multiplication for
the first mask, `⌈log₂(W/s)⌉ - 1` for the doubling loop, one for the row
phase), and the multi-channel variant by one more. -/
theorem claim_C3 (N W s nc : ℕ) (c : Ct) (how : 2 ≤ W / s) (hnc : 1 ≤ nc) :
    (downsample N c W s).level = c.level + (Nat.clog 2 (W / s) + 1) ∧
    (downsample_with_multiple_channels N c W s nc).level =
      c.level + (Nat.clog 2 (W / s) + 2) := by
  have h1 : 1 ≤ W / s := by omega
  have hc : 0 < Nat.clog 2 (W / s) := Nat.clog_pos (by omega) how
  refine ⟨?_, ?_⟩
  · rw [downsample_level N W s c h1]
    omega
  · rw [downsample_channels_level N W s nc c h1 hnc]
    omega

theorem claim_C3_witness :
    2 ≤ 4 / 2 ∧ 1 ≤ 2 ∧
    ((downsample 24 (ctOfVec 24 [1] 0) 4 2).level =
        (ctOfVec 24 [1] 0).level + (Nat.clog 2 (4 / 2) + 1) ∧
      (downsample_with_multiple_channels 24 (ctOfVec 24 [1] 0) 4 2 2).level =
        (ctOfVec 24 [1] 0).level + (Nat.clog 2 (4 / 2) + 2)) :=
  ⟨by decide, by decide, claim_C3 24 4 2 2 (ctOfVec 24 [1] 0) (by decide) (by decide)⟩

/-- C3, the original count refuted: for W = 4, s = 2 the spec predicts a
level increase of log₂(W/s) + 2 = 3, but `downsample` on a level-0 input
returns a level-2 ciphertext. -/
theorem claim_C3_counterexample :
    (downsample 24 (ctOfVec 24 [1] 0) 4 2).level = 2 ∧ (2 : ℕ) ≠ 3 := by
  refine ⟨?_, by decide⟩
  rw [downsample_level 24 4 2 _ (by decide)]
  have h2 : Nat.clog 2 2 = 1 := by
    rw [Nat.clog]
    norm_num
  rw [show (ctOfVec 24 [1] 0).level = 0 from rfl, h2]

/-- C1 (amended): for input width `W = 2^k` (k ≥ 2) and stride 2, on a
ciphertext whose first `W²` slots hold a row-major tile `f` and whose other
slots are zero, `downsample` produces the classical 2-strided subsample in
the first `(W/2)²` slots and zero elsewhere. -/
theorem claim_C1 (N k : ℕ) (f : ℕ → ℚ) (lvl : ℕ) (hk : 2 ≤ k)
    (hN : 2 ^ k * 2 ^ k + 2 ^ k ≤ N) :
    (∀ i j : ℕ, i < 2 ^ (k - 1) → j < 2 ^ (k - 1) →
      (downsample N (ctOfFun N (2 ^ k * 2 ^ k) f lvl) (2 ^ k) 2).slots
          ((i * 2 ^ (k - 1) + j : ℕ) : ℤ) = f ((2 * i) * 2 ^ k + 2 * j)) ∧
    (∀ z : ℤ, (2 ^ (k - 1) * 2 ^ (k - 1) : ℕ) ≤ ((z % (N : ℤ)).toNat) →
      (downsample N (ctOfFun N (2 ^ k * 2 ^ k) f lvl) (2 ^ k) 2).slots z = 0) :=
  downsample_stride2_spec N k f lvl hk hN

theorem claim_C1_witness :
    2 ≤ 2 ∧ 2 ^ 2 * 2 ^ 2 + 2 ^ 2 ≤ 24 ∧
    ((∀ i j : ℕ, i < 2 ^ (2 - 1) → j < 2 ^ (2 - 1) →
      (downsample 24 (ctOfFun 24 (2 ^ 2 * 2 ^ 2) (fun n => (n : ℚ)) 0) (2 ^ 2) 2).slots
          ((i * 2 ^ (2 - 1) + j : ℕ) : ℤ) = ((2 * i) * 2 ^ 2 + 2 * j : ℕ)) ∧
    (∀ z : ℤ, (2 ^ (2 - 1) * 2 ^ (2 - 1) : ℕ) ≤ ((z % (24 : ℤ)).toNat) →
      (downsample 24 (ctOfFun 24 (2 ^ 2 * 2 ^ 2) (fun n => (n : ℚ)) 0) (2 ^ 2) 2).slots z = 0)) :=
  ⟨by decide, by decide, claim_C1 24 2 (fun n => (n : ℚ)) 0 (by decide) (by decide)⟩

/-- C1, the general-stride reading refuted: for W = 8, stride 4 (a power
of two dividing W), the classical subsample would put tile entry 4 in
output slot 1, but `downsample` leaves slot 1 at 0. -/
theorem claim_C1_counterexample :
    (downsample 1024 (ctOfFun 1024 64 (fun n => (n : ℚ)) 0) 8 4).slots 1 = 0 ∧
    ((0 : ℚ) ≠ 4) := by
  constructor
  · norm_num [downsample, dsJuxtapose, dsLoop, dsLoopStep, dsRowStep, evalMult, evalAdd,
      evalRotate, cloneCt, ptAt, first_mask, generate_binary_mask, generate_row_mask,
      generate_zero_mask, first_mask_vals, generate_binary_mask_vals, generate_row_mask_vals,
      makePt, ctOfFun, Nat.clog, List.range', List.range, List.range.loop, List.foldl,
      List.getD, List.replicate, Int.toNat]
  · norm_num

/-- C9 (amended): `read_scaling_value_with_key` returns the least power of
two greater than or equal to `⌈m⌉`, where `m` is the maximum absolute slot
value of the decrypted vector (`read_scaling_value`, by contrast, returns
a value without power-of-two rounding: see the counterexample). -/
theorem claim_C9 (v : List ℚ) (m : ℚ) (hne : v ≠ [])
    (hmem : ∃ x ∈ v, |x| = m) (hmax : ∀ x ∈ v, |x| ≤ m)
    (hpos : 0 < m) (hb : (Int.ceil m).toNat ≤ 2 ^ 31) :
    (∃ e : ℕ, read_scaling_value_with_key v = 2 ^ e) ∧
    (Int.ceil m : ℤ) ≤ (read_scaling_value_with_key v : ℤ) ∧
    ∀ p : ℕ, (∃ e : ℕ, p = 2 ^ e) → (Int.ceil m : ℤ) ≤ (p : ℤ) →
      read_scaling_value_with_key v ≤ p := by
  have habs := maxElementBy_abs v m hne hmem hmax
  have hrw : read_scaling_value_with_key v = nextPowerOf2 (Int.ceil m).toNat := by
    rw [read_scaling_value_with_key, habs]
  have hceil : (1 : ℤ) ≤ Int.ceil m := by
    rw [Int.le_ceil_iff]
    simpa using hpos
  have h1 : 1 ≤ (Int.ceil m).toNat := by omega
  obtain ⟨hex, hle, hmin⟩ := nextPowerOf2_least (Int.ceil m).toNat h1 hb
  refine ⟨hrw ▸ hex, ?_, ?_⟩
  · rw [hrw]
    omega
  · intro p hp hple
    rw [hrw]
    exact hmin p hp (by omega)

theorem claim_C9_witness :
    ([(3 : ℚ)] ≠ []) ∧ (∃ x ∈ [(3 : ℚ)], |x| = 3) ∧ (∀ x ∈ [(3 : ℚ)], |x| ≤ 3) ∧
    ((0 : ℚ) < 3) ∧ ((Int.ceil (3 : ℚ)).toNat ≤ 2 ^ 31) ∧
    ((∃ e : ℕ, read_scaling_value_with_key [(3 : ℚ)] = 2 ^ e) ∧
      (Int.ceil (3 : ℚ) : ℤ) ≤ (read_scaling_value_with_key [(3 : ℚ)] : ℤ) ∧
      ∀ p : ℕ, (∃ e : ℕ, p = 2 ^ e) → (Int.ceil (3 : ℚ) : ℤ) ≤ (p : ℤ) →
        read_scaling_value_with_key [(3 : ℚ)] ≤ p) :=
  ⟨by simp, ⟨3, by norm_num⟩, by norm_num, by norm_num, by norm_num,
    claim_C9 [(3 : ℚ)] 3 (by simp) ⟨3, by norm_num⟩ (by norm_num) (by norm_num)
      (by norm_num)⟩

/-- C9, the uniform reading refuted: on the vector `[3]` the helper
`read_scaling_value` returns `⌈|3|⌉ = 3`, not the claimed
`next_pow2(⌈3⌉) = 4` that `read_scaling_value_with_key` returns. -/
theorem claim_C9_counterexample :
    read_scaling_value [(3 : ℚ)] = 3 ∧
    read_scaling_value_with_key [(3 : ℚ)] = 4 ∧ (3 : ℤ) ≠ 4 := by
  refine ⟨?_, ?_, by decide⟩
  · rw [read_scaling_value]
    norm_num [maxElementBy]
  · rw [read_scaling_value_with_key]
    norm_num [maxElementBy]
    rw [show Int.toNat 3 = 3 from rfl, nextPowerOf2_eq_smear, if_neg (by omega)]
    rfl

/-- C7 (amended): for an integer scale value `t > 1`, `he_relu` multiplies
the first `n` slots by `1/t` and applies the (exactly modelled) Chebyshev
ReLU lambda, so each of the first `n` output slots is `max 0 x`; for
non-integer scale values the `double → int` truncation in the call to
`generate_scale_mask` breaks the round trip (see the counterexample). -/
theorem claim_C7 (N : ℕ) (c : Ct) (t : ℤ) (n deg i : ℕ)
    (ht : 1 < t) (hn : 1 ≤ n) (hn31 : n ≤ 2 ^ 31) (hi : i < n)
    (hbound : ∀ j : ℕ, j < n → |c.slots j| ≤ (t : ℚ)) :
    (he_relu N c (t : ℚ) n deg).slots i = max 0 (c.slots i) := by
  have h1 : (1 : ℚ) < (t : ℚ) := by exact_mod_cast ht
  have ht0 : (0 : ℚ) < (t : ℚ) := by linarith
  rw [he_relu]
  simp only [if_pos h1]
  show (fun x => if x < 0 then 0 else (t : ℚ) * x)
      ((evalMult c (makePtSparse (generate_scale_mask (cppToInt ((t : ℤ) : ℚ)) n) 0
        (nextPowerOf2 n))).slots i) = max 0 (c.slots i)
  rw [evalMult_slots, cppToInt_intCast]
  have hper : (i : ℤ) % ((nextPowerOf2 n : ℕ) : ℤ) = (i : ℤ) := by
    apply Int.emod_eq_of_lt (by omega)
    have := le_nextPowerOf2 n hn hn31
    omega
  have hmask : ptAt (makePtSparse (generate_scale_mask t n) 0 (nextPowerOf2 n)) i
      = 1 / (t : ℚ) := by
    rw [ptAt, makePtSparse]
    simp only
    rw [hper, show ((i : ℤ)).toNat = i from rfl, generate_scale_mask,
      getD_replicate_ite, if_pos hi]
  rw [hmask]
  simp only
  rcases lt_or_ge (c.slots i) 0 with hx | hx
  · rw [if_pos (mul_neg_of_neg_of_pos hx (by positivity)),
      max_eq_left (le_of_lt hx)]
  · rw [if_neg (not_lt.mpr (mul_nonneg hx (by positivity))),
      max_eq_right hx]
    field_simp

theorem claim_C7_witness :
    (1 : ℤ) < 3 ∧ 1 ≤ 1 ∧ 1 ≤ 2 ^ 31 ∧ 0 < 1 ∧
    (∀ j : ℕ, j < 1 → |(ctOfVec 4 [2] 0).slots j| ≤ ((3 : ℤ) : ℚ)) ∧
    (he_relu 4 (ctOfVec 4 [2] 0) ((3 : ℤ) : ℚ) 1 59).slots 0 =
      max 0 ((ctOfVec 4 [2] 0).slots 0) :=
  ⟨by decide, by decide, by norm_num, by decide,
    by
      intro j hj
      have hj0 : j = 0 := by omega
      subst hj0
      norm_num [ctOfVec, Int.toNat],
    claim_C7 4 (ctOfVec 4 [2] 0) 3 1 59 0 (by decide) (by decide) (by norm_num)
      (by decide)
      (by
        intro j hj
        have hj0 : j = 0 := by omega
        subst hj0
        norm_num [ctOfVec, Int.toNat])⟩

/-- C7, the real-scale reading refuted: with scale 5/2 and input slot 2,
`generate_scale_mask` receives `int(5/2) = 2`, so the slot is scaled by
1/2 and rescaled by 5/2, yielding 5/2 instead of `max 0 2 = 2`. -/
theorem claim_C7_counterexample :
    (he_relu 16 (ctOfVec 16 [2] 0) (5 / 2) 1 59).slots 0 = 5 / 2 ∧
    (5 / 2 : ℚ) ≠ max 0 2 := by
  constructor
  · rw [he_relu]
    simp only [if_pos (show (1 : ℚ) < 5 / 2 by norm_num)]
    show (fun x => if x < 0 then 0 else (5 / 2 : ℚ) * x)
        ((evalMult (ctOfVec 16 [2] 0)
          (makePtSparse (generate_scale_mask (cppToInt (5 / 2)) 1) 0
            (nextPowerOf2 1))).slots 0) = 5 / 2
    rw [evalMult_slots,
      show cppToInt (5 / 2 : ℚ) = 2 by
        rw [cppToInt_eq_floor _ (by norm_num)]
        norm_num,
      nextPowerOf2_one]
    norm_num [ctOfVec, ptAt, makePtSparse, generate_scale_mask, Int.toNat,
      List.getD, List.replicate]
  · norm_num

/-- C8 (amended): for each MNIST line the client reads `MNIST_DIM = 784`
floats and zero-pads to `NORMALIZED_DIM = 4096` (not 1024) *before*
normalising, so every one of the 4096 entries — padding included — is
normalised: the first 784 slots hold `(x - 0.1307)/0.3081` of the pixels
and the 3312 padding slots hold `(0 - 0.1307)/0.3081 = -1307/3081`, not
zero. -/
theorem claim_C8 (line : List ℚ) :
    (client_input_vector line).length = NORMALIZED_DIM ∧
    (∀ i : ℕ, i < MNIST_DIM →
      (client_input_vector line).getD i 0 = normalize_pixel (line.getD i 0)) ∧
    (∀ i : ℕ, MNIST_DIM ≤ i → i < NORMALIZED_DIM →
      (client_input_vector line).getD i 0 = normalize_pixel 0) ∧
    normalize_pixel 0 = -(1307 / 3081) :=
  client_input_vector_spec line

/-- C8, the stated pipeline refuted: the client's vector has length 4096
(not 1024), and its first padding slot (index 784) holds the normalised
zero `-1307/3081`, not zero. -/
theorem claim_C8_counterexample :
    (client_input_vector (List.replicate MNIST_DIM 1)).length = 4096 ∧
    (4096 : ℕ) ≠ 1024 ∧
    (client_input_vector (List.replicate MNIST_DIM 1)).getD 784 0 = -(1307 / 3081) ∧
    (-(1307 / 3081) : ℚ) ≠ 0 := by
  obtain ⟨hlen, hpix, hpad, hval⟩ := client_input_vector_spec (List.replicate MNIST_DIM 1)
  refine ⟨hlen, by decide, ?_, by norm_num⟩
  rw [hpad 784 (by norm_num [MNIST_DIM]) (by norm_num [NORMALIZED_DIM]), hval]

/-- C5 (confirmed): `he_linear` computes, in output slot `i < Co`, the inner
product of the input with weight row `i` plus the bias entry `i`, provided
the group size `rotatePositions ≥ 1` and the shapes fit (`Co` rows, `Ci ≤ N`,
`Co + rotatePositions ≤ N`). -/
theorem claim_C5 (N Ci Co r lvl lw lb : ℕ) (x b : List ℚ) (w : List (List ℚ))
    (i : ℕ) (hi : i < Co) (hr : 1 ≤ r) (hCo : Co ≤ w.length) (hCiN : Ci ≤ N)
    (hN : Co + r ≤ N) :
    (he_linear N (ctOfVec N x lvl) (w.map fun row => makePt N row lw)
        (makePt N b lb) Ci Co r).slots i =
      ((List.range Ci).map fun j => (w.getD i []).getD j 0 * x.getD j 0).sum
        + b.getD i 0 := by
  have hlen : ¬ (Co > (w.map fun row => makePt N row lw).length) := by
    rw [List.length_map]
    omega
  rw [he_linear, if_neg hlen]
  show (evalAddPt (evalAddMany (((List.range Co).foldl
      (linStep (fun idx => evalSum (evalMult (ctOfVec N x lvl)
        ((w.map fun row => makePt N row lw).getD idx defaultPt)) Ci) N r Co)
      (0, 0, [], [])).2.2.2)) (makePt N b lb)).slots i = _
  set C : ℕ → Ct := fun idx => evalSum (evalMult (ctOfVec N x lvl)
    ((w.map fun row => makePt N row lw).getD idx defaultPt)) Ci with hC
  rw [linFold_final N r Co C hr (by omega), evalAddPt_slots, evalAddMany_slots,
    List.map_append, List.sum_append, List.map_map]
  simp only [Function.comp_def, List.map_cons, List.map_nil, List.sum_cons,
    List.sum_nil, add_zero]
  have hbias : ptAt (makePt N b lb) ((i : ℕ) : ℤ) = b.getD i 0 := by
    show b.getD ((((i : ℕ) : ℤ)) % ((N : ℕ) : ℤ)).toNat 0 = b.getD i 0
    rw [emod_toNat_self i (by omega)]
  set G := (Co - 1) / r with hG
  have hCoeq : r * G + ((Co - 1) % r + 1) = Co := by
    have h := Nat.div_add_mod (Co - 1) r
    rw [← hG] at h
    omega
  have hstar := Nat.div_add_mod i r
  have hirlt : i % r < r := Nat.mod_lt i (by omega)
  have hA : ∀ g, g < G →
      (linGroup N r C g r).slots i =
        if r * g ≤ i ∧ i < r * g + r then (C i).slots 0 else 0 := by
    intro g hg
    apply linGroup_slots
    · omega
    · have h2 : r * (g + 1) ≤ r * G := Nat.mul_le_mul_left r hg
      have h4 : r * (g + 1) = r * g + r := Nat.mul_succ r g
      omega
  have hlast : (linGroup N r C G ((Co - 1) % r + 1)).slots i =
      if r * G ≤ i ∧ i < r * G + ((Co - 1) % r + 1) then (C i).slots 0 else 0 :=
    linGroup_slots N r C G ((Co - 1) % r + 1) i (by omega) (by omega)
  have hdivle : i / r ≤ G := by
    rw [hG]
    exact Nat.div_le_div_right (by omega)
  have hscal : (C i).slots 0 =
      ((List.range Ci).map fun j => (w.getD i []).getD j 0 * x.getD j 0).sum := by
    rw [hC]
    exact linScalar N Ci lvl lw x w i (by omega) hCiN
  rw [hbias]
  by_cases hcase : i / r < G
  · have hsumA : ((List.range G).map fun g => (linGroup N r C g r).slots i).sum =
        (C i).slots 0 := by
      rw [sum_map_single G (i / r) _ hcase ?_]
      · rw [hA (i / r) hcase, if_pos (by omega)]
      · intro g hg hne
        rw [hA g hg, if_neg ?_]
        rintro ⟨ha, hb⟩
        apply hne
        have : i / r = g := Nat.div_eq_of_lt_le (by rw [Nat.mul_comm]; omega)
          (by rw [show (g + 1) * r = r * g + r from by ring]; omega)
        omega
    have hlast0 : (linGroup N r C G ((Co - 1) % r + 1)).slots i = 0 := by
      rw [hlast, if_neg ?_]
      rintro ⟨ha, hb⟩
      have h2 : r * (i / r + 1) ≤ r * G := Nat.mul_le_mul_left r hcase
      have h4 : r * (i / r + 1) = r * (i / r) + r := Nat.mul_succ r (i / r)
      omega
    rw [hsumA, hlast0, hscal]
    ring
  · have hGeq : i / r = G := by omega
    have hsumA : ((List.range G).map fun g => (linGroup N r C g r).slots i).sum = 0 := by
      apply sum_map_zero
      intro g hg
      rw [hA g hg, if_neg ?_]
      rintro ⟨ha, hb⟩
      have h2 : r * (g + 1) ≤ r * (i / r) := Nat.mul_le_mul_left r (by omega)
      have h4 : r * (g + 1) = r * g + r := Nat.mul_succ r g
      omega
    have hlast1 : (linGroup N r C G ((Co - 1) % r + 1)).slots i = (C i).slots 0 := by
      rw [hlast, if_pos ?_]
      constructor
      · rw [← hGeq]
        omega
      · omega
    rw [hsumA, hlast1, hscal]
    ring

theorem claim_C5_witness :
    (0 : ℕ) < 2 ∧ (1 : ℕ) ≤ 2 ∧ (2 : ℕ) ≤ 2 ∧ (4 : ℕ) ≤ 8 ∧ (2 + 2 : ℕ) ≤ 8 ∧
    (he_linear 8 (ctOfVec 8 [1, 2, 3, 4] 0)
        ([[1, 0, 0, 0], [0, 1, 0, 0]].map fun row => makePt 8 row 0)
        (makePt 8 [10, 20] 0) 4 2 2).slots ((0 : ℕ) : ℤ) = 11 ∧
    (he_linear 8 (ctOfVec 8 [1, 2, 3, 4] 0)
        ([[1, 0, 0, 0], [0, 1, 0, 0]].map fun row => makePt 8 row 0)
        (makePt 8 [10, 20] 0) 4 2 2).slots ((1 : ℕ) : ℤ) = 22 := by
  refine ⟨by decide, by decide, by decide, by decide, by decide, ?_, ?_⟩
  · rw [claim_C5 8 4 2 2 0 0 0 [1, 2, 3, 4] [10, 20] [[1, 0, 0, 0], [0, 1, 0, 0]] 0
      (by decide) (by decide) (by decide) (by decide) (by decide)]
    norm_num [List.range, List.range.loop, List.getD, List.sum_cons]
  · rw [claim_C5 8 4 2 2 0 0 0 [1, 2, 3, 4] [10, 20] [[1, 0, 0, 0], [0, 1, 0, 0]] 1
      (by decide) (by decide) (by decide) (by decide) (by decide)]
    norm_num [List.range, List.range.loop, List.getD, List.sum_cons]

/-- C2 (amended): for stride 1 and padding 0, every rotation offset
`he_convolution` passes to the backend is one of the offsets returned by
`generate_convolution_rotation_positions` for the same shape. -/
theorem claim_C2 (inputWidth inputChannels outputChannels kernelWidth paddingLen : ℕ)
    (hk : 1 ≤ kernelWidth) (hW : kernelWidth ≤ inputWidth) :
    ∀ z ∈ he_convolution_rotations inputWidth inputChannels outputChannels
        kernelWidth paddingLen 1,
      z ∈ generate_convolution_rotation_positions inputWidth inputChannels
        outputChannels kernelWidth 0 1 := by
  intro z hz
  have hV : 1 ≤ inputWidth - kernelWidth + 1 := by omega
  have h11 : ¬ ((1 : ℕ) > 1) := by omega
  rw [he_convolution_rotations] at hz
  rw [generate_convolution_rotation_positions]
  simp only [Nat.div_one, Nat.mul_zero, Nat.add_zero, if_neg h11] at hz ⊢
  have hwoz : (((inputWidth : ℕ) : ℤ) - ((kernelWidth : ℤ) - 1) - 1).tdiv
      ((1 : ℕ) : ℤ) + 1 = ((inputWidth - kernelWidth + 1 : ℕ) : ℤ) := by
    rw [show ((1 : ℕ) : ℤ) = 1 from rfl, Int.tdiv_one]
    omega
  simp only [hwoz]
  have hcnt : ((((inputWidth - kernelWidth + 1 : ℕ) : ℤ)) - 1).toNat
      = inputWidth - kernelWidth + 1 - 1 := by omega
  simp only [hcnt]
  have hWne : ((inputWidth : ℕ) : ℤ) ≠ 0 := by
    exact_mod_cast (show inputWidth ≠ 0 by omega)
  have hW2ne : ((inputWidth * inputWidth : ℕ) : ℤ) ≠ 0 := by
    exact_mod_cast Nat.mul_ne_zero (by omega) (by omega)
  obtain ⟨a, ha, hzin⟩ | ⟨oc, hoc, hzin⟩ := by
    simpa only [List.mem_append, List.mem_flatten, List.mem_map,
      exists_exists_and_eq_and] using hz
  · rcases hzin with hb | ⟨j, hj, rfl⟩
    · rw [mem_ite_nil_int] at hb
      obtain ⟨ha0, hb⟩ := hb
      rw [List.mem_singleton] at hb
      subst hb
      apply mem_sortRemoveUniqueErase _ _ hWne
      simp [List.mem_append, List.mem_cons]
    · obtain ⟨hj1, hj2⟩ := List.mem_range'_1.mp hj
      apply mem_sortRemoveUniqueErase _ _
        (by exact_mod_cast (show j ≠ 0 by omega) : ((j : ℕ) : ℤ) ≠ 0)
      refine List.mem_append.mpr (Or.inl (List.mem_append.mpr (Or.inl
        (List.mem_append.mpr (Or.inr ?_)))))
      exact List.mem_map.mpr ⟨j, hj, rfl⟩
  · rcases hzin with (hci | ⟨l, hl, hzi⟩) | hoc'
    · rw [mem_ite_nil_int] at hci
      obtain ⟨hCi1, hci⟩ := hci
      rw [List.mem_replicate] at hci
      obtain ⟨-, rfl⟩ := hci
      apply mem_sortRemoveUniqueErase _ _ hW2ne
      simp [List.mem_append, List.mem_cons]
    · obtain ⟨hl1, hl2⟩ := List.mem_range'_1.mp hl
      rcases List.mem_cons.mp hzi with rfl | hz2
      · apply mem_sortRemoveUniqueErase _ _ hWne
        simp [List.mem_append, List.mem_cons]
      · rw [List.mem_singleton] at hz2
        subst hz2
        apply mem_sortRemoveUniqueErase _ _
          (by
            rw [neg_ne_zero]
            exact_mod_cast Nat.mul_ne_zero (by omega) (by omega))
        refine List.mem_append.mpr (Or.inl (List.mem_append.mpr (Or.inr ?_)))
        refine List.mem_map.mpr ⟨l, hl, ?_⟩
        push_cast
        ring
    · rw [mem_ite_nil_int] at hoc'
      have hocl : oc < outputChannels := by simpa using hoc
      obtain ⟨hoc0, h⟩ := hoc'
      rw [List.mem_singleton] at h
      subst h
      apply mem_sortRemoveUniqueErase _ _
        (by
          rw [neg_ne_zero]
          exact_mod_cast Nat.mul_ne_zero (by omega)
            (Nat.mul_ne_zero (by omega) (by omega)))
      refine List.mem_append.mpr (Or.inr ?_)
      refine List.mem_map.mpr ⟨oc, List.mem_range'_1.mpr ⟨by omega, by omega⟩, ?_⟩
      push_cast
      ring

/-- C2, set equality refuted: for the 4×4, single-channel, 3×3, stride-1
shape the planner emits the offset −1, which `he_convolution` never passes
to a rotation. -/
theorem claim_C2_counterexample :
    (-1 : ℤ) ∈ generate_convolution_rotation_positions 4 1 1 3 0 1 ∧
    (-1 : ℤ) ∉ he_convolution_rotations 4 1 1 3 0 1 := by
  constructor
  · decide
  · decide

theorem claim_C2_witness :
    ((1 : ℕ) ≤ 3) ∧ ((3 : ℕ) ≤ 4) ∧
    (∀ z ∈ he_convolution_rotations 4 2 2 3 0 1,
      z ∈ generate_convolution_rotation_positions 4 2 2 3 0 1) :=
  ⟨by decide, by decide, claim_C2 4 2 2 3 0 (by decide) (by decide)⟩

/-- C4 (amended): every planner that runs the sort / remove(0) / unique /
erase / sort pipeline returns a strictly increasing, duplicate-free list of
offsets that does not contain 0, for non-degenerate shapes (kernel ≥ 1,
2 ≤ stride ≤ inputWidth, inputWidth ≥ 3, rotationPositions ≥ 1, and — for
the generic convolution planner — a kernel that fits the padded input,
kernelWidth ≤ inputWidth + 2·padding; the two optimized planners on their
"basic" striding branch, the optimized avgpool planner with globalPooling
off).  Outside these shapes the claim fails: the two early-return branches
of `generate_avgpool_optimized_rotation_positions` (globalPooling, or
inputWidth ≤ 2) skip the pipeline and return an unsorted list containing 0,
and when `kernelWidth ≥ inputWidth + 2·padding + stride` the convolution
planner's int `width_out` is ≤ 0, its zero pushes make the pipeline leak
duplicates (see the counterexample). -/
theorem claim_C4 (inputWidth inputChannels outputChannels kernelWidth padding stride
    maxFCLayeroutputs rotationPositions rotationIndex : ℕ)
    (hkW : 1 ≤ kernelWidth) (hst : 2 ≤ stride) (hsW : stride ≤ inputWidth)
    (hW3 : 3 ≤ inputWidth) (hr : 1 ≤ rotationPositions)
    (hkp : kernelWidth ≤ inputWidth + 2 * padding) :
    cleanOffsets (generate_convolution_rotation_positions inputWidth inputChannels
      outputChannels kernelWidth padding stride) ∧
    cleanOffsets (generate_avgpool_rotation_positions inputWidth kernelWidth stride
      inputChannels) ∧
    cleanOffsets (generate_optimized_convolution_rotation_positions inputWidth
      inputChannels outputChannels stride "basic") ∧
    cleanOffsets (generate_avgpool_optimized_rotation_positions inputWidth
      inputChannels kernelWidth stride false "basic" rotationIndex) ∧
    cleanOffsets (generate_linear_rotation_positions maxFCLayeroutputs
      rotationPositions) :=
  ⟨conv_planner_clean _ _ _ _ _ _ (by omega) hkp,
    avgpool_planner_clean _ _ _ _ hkW (by omega) hsW,
    optconv_planner_clean _ _ _ _ hst hsW,
    avgpoolopt_planner_clean _ _ _ _ _ hW3 hst hsW,
    linear_planner_clean _ _ hr⟩

/-- C4 refuted: the global-pooling early return of the optimized avgpool
planner skips the pipeline, so its list contains 0 and is not sorted; and
at (W=3, Ci=1, Co=3, k=6, pad=0, s=2) the convolution planner's int
`width_out` is 0, whose zero pushes make the remove/unique/erase pipeline
return `[-1,1,2,3,4,4,5,5,9,9]` — with duplicates. -/
theorem claim_C4_counterexample :
    (0 : ℤ) ∈ generate_avgpool_optimized_rotation_positions 4 4 2 2 true "basic" 2 ∧
    ¬ List.Chain' (· < ·)
      (generate_avgpool_optimized_rotation_positions 4 4 2 2 true "basic" 2) ∧
    generate_convolution_rotation_positions 3 1 3 6 0 2 =
      [-1, 1, 2, 3, 4, 4, 5, 5, 9, 9] ∧
    ¬ (generate_convolution_rotation_positions 3 1 3 6 0 2).Nodup := by
  have hl : generate_avgpool_optimized_rotation_positions 4 4 2 2 true "basic" 2 =
      [16, -4, 0, -2, 1, 2] := by decide
  have hc : generate_convolution_rotation_positions 3 1 3 6 0 2 =
      [-1, 1, 2, 3, 4, 4, 5, 5, 9, 9] := by decide
  rw [hl, hc]
  refine ⟨by decide, ?_, rfl, ?_⟩
  · intro hch
    rw [List.chain'_cons] at hch
    exact absurd hch.1 (by decide)
  · intro hnd
    have := List.nodup_iff_count_le_one.mp hnd 4
    have hcount : List.count 4 [(-1 : ℤ), 1, 2, 3, 4, 4, 5, 5, 9, 9] = 2 := by decide
    omega

theorem claim_C4_witness :
    ((1 : ℕ) ≤ 3) ∧ ((2 : ℕ) ≤ 2) ∧ ((2 : ℕ) ≤ 4) ∧ ((3 : ℕ) ≤ 4) ∧ ((1 : ℕ) ≤ 2) ∧
    ((3 : ℕ) ≤ 4 + 2 * 1) ∧
    (cleanOffsets (generate_convolution_rotation_positions 4 2 2 3 1 2) ∧
      cleanOffsets (generate_avgpool_rotation_positions 4 3 2 2) ∧
      cleanOffsets (generate_optimized_convolution_rotation_positions 4 2 2 2 "basic") ∧
      cleanOffsets (generate_avgpool_optimized_rotation_positions 4 2 3 2 false "basic" 2) ∧
      cleanOffsets (generate_linear_rotation_positions 8 2)) :=
  ⟨by decide, by decide, by decide, by decide, by decide, by decide,
    claim_C4 4 2 2 3 1 2 8 2 2 (by decide) (by decide) (by decide) (by decide)
      (by decide) (by decide)⟩

end Fheon
